import Mathlib

/-!
Verification of the MPC key-share bridge core: the hex scalar codec,
the Lagrange coefficient engine, polynomial share generation, the
Shamir/additive converters, and global parameter reconstruction.

The scalar field of the curve is modelled as `ZMod q`; the prime-order
group generated by the base point `G` is modelled by its discrete
logarithm (`EPoint`), since every point handled by the reconstructor is
produced as `generator * scalar` and only group operations are applied.
The byte width of the field (32 for secp256k1) is the parameter `w`.
-/

namespace MpcBridge

/-! ## Hex primitives (src/bridge/common.rs and the hex crate) -/

/-- Lowercase hex alphabet used by `hex::encode`: the digits `0`-`9`
followed by the letters `a`-`f`. -/
def hexAlphabet : List Char :=
  (List.range 16).map (fun k => Char.ofNat (if k < 10 then 48 + k else 87 + k))

/-- The lowercase hex digit for a nibble. -/
def hexDigitChar (k : ℕ) : Char :=
  hexAlphabet.getD k '0'

/-- Value of a hex digit; `hex::decode` accepts both cases. -/
def hexVal (c : Char) : Option ℕ :=
  let v := c.toNat
  if 48 ≤ v ∧ v ≤ 57 then some (v - 48)
  else if 97 ≤ v ∧ v ≤ 102 then some (v - 97 + 10)
  else if 65 ≤ v ∧ v ≤ 70 then some (v - 65 + 10)
  else none

/-- `hex::encode`: two lowercase digits per byte, big-endian within the byte. -/
def hexEncodeBytes : List ℕ → List Char
  | [] => []
  | b :: bs => hexDigitChar (b / 16) :: hexDigitChar (b % 16) :: hexEncodeBytes bs

/-- `hex::decode`: fails on odd length or a non-hex character. -/
def hexDecode : List Char → Option (List ℕ)
  | [] => some []
  | [_] => none
  | c1 :: c2 :: rest =>
    match hexVal c1, hexVal c2, hexDecode rest with
    | some h, some l, some bs => some ((16 * h + l) :: bs)
    | _, _, _ => none

/-- `strip_0x`: `trim_start_matches("0x")` removes every leading `0x`. -/
def strip_0x : List Char → List Char
  | c1 :: c2 :: rest => if c1 = '0' ∧ c2 = 'x' then strip_0x rest else c1 :: c2 :: rest
  | s => s

/-- `pad_hex`: prepend a `0` when the length is odd. -/
def pad_hex (s : List Char) : List Char :=
  if s.length % 2 ≠ 0 then '0' :: s else s

/-- Big-endian fixed-width byte encoding of a natural number (`to_bytes`). -/
def toBytesBE : ℕ → ℕ → List ℕ
  | 0, _ => []
  | wd + 1, v => toBytesBE wd (v / 256) ++ [v % 256]

/-- Big-endian byte decoding of a natural number. -/
def fromBytesBE (bs : List ℕ) : ℕ :=
  bs.foldl (fun acc b => acc * 256 + b) 0

/-! ## Scalar codec (the encode/decode paths inlined in src/bridge/core.rs) -/

/-- `encode_scalar`: `hex::encode(s.to_bytes())`, the canonical fixed-width
big-endian lowercase encoding of a scalar (core.rs lines 85, 148, 198). -/
def encode_scalar (q w : ℕ) (s : ZMod q) : List Char :=
  hexEncodeBytes (toBytesBE w s.val)

/-- `decode_scalar`: the parse path of core.rs (lines 65-77, 178-187):
strip the `0x` prefixes, pad to even length, hex-decode, reject more than
`w` bytes, left-pad with zero bytes to width `w`, and apply the canonical
`from_repr` check (the value must be a canonical field element). -/
def decode_scalar (q w : ℕ) (s : List Char) : Option (ZMod q) :=
  let padded := pad_hex (strip_0x s)
  match hexDecode padded with
  | none => none
  | some bytes =>
    if w < bytes.length then none
    else
      let s_bytes := List.replicate (w - bytes.length) 0 ++ bytes
      let v := fromBytesBE s_bytes
      if v < q then some ((v : ℕ) : ZMod q) else none

/-! ## Curve points in discrete-logarithm form -/

/-- A point of the prime-order subgroup generated by `G`, represented by
its discrete logarithm.  `generator * s` is `genMul s`. -/
structure EPoint (q : ℕ) where
  dlog : ZMod q
deriving DecidableEq

/-- `Point::generator() * s`. -/
def EPoint.genMul (q : ℕ) (s : ZMod q) : EPoint q :=
  ⟨s⟩

/-- Point addition. -/
def EPoint.add {q : ℕ} (a b : EPoint q) : EPoint q :=
  ⟨a.dlog + b.dlog⟩

/-- Point-by-scalar multiplication. -/
def EPoint.smul {q : ℕ} (a : EPoint q) (s : ZMod q) : EPoint q :=
  ⟨a.dlog * s⟩

/-! ## src/math.rs -/

/-- `Scalar::invert()`: defined exactly on the nonzero field elements,
computed as k256 computes it, by Fermat exponentiation with `q - 2`
(which equals the field inverse on a prime field, `zmod_pow_sub_two`). -/
def scalarInvert (q : ℕ) (x : ZMod q) : Option (ZMod q) :=
  if x = 0 then none else some (x ^ (q - 2))

/-- The loop of `calculate_lagrange_coefficient` (math.rs lines 48-66):
entries equal to `my_x` are skipped, every other entry contributes the
factor `x_j * (x_j - my_x)⁻¹`; a failing `invert().unwrap()` is `none`. -/
def lagrangeLoop (q : ℕ) (my_x : ZMod q) : List (ZMod q) → ZMod q → Option (ZMod q)
  | [], lambda => some lambda
  | other_x :: rest, lambda =>
    if other_x = my_x then lagrangeLoop q my_x rest lambda
    else
      match scalarInvert q (other_x - my_x) with
      | none => none
      | some den => lagrangeLoop q my_x rest (lambda * (other_x * den))

/-- `calculate_lagrange_coefficient` (math.rs lines 46-68). -/
def calculate_lagrange_coefficient (q : ℕ) (party_index : ℕ) (all_indices : List ℕ) :
    Option (ZMod q) :=
  lagrangeLoop q ((party_index : ℕ) : ZMod q)
    (all_indices.map (fun j => ((j : ℕ) : ZMod q))) 1

/-- The polynomial-evaluation loop of math.rs lines 116-124: running value
`y` and running power `x_pow`. -/
def polyEvalLoop (q : ℕ) : List (ZMod q) → ZMod q → ZMod q → ZMod q → ZMod q
  | [], _, y, _ => y
  | c :: rest, x, y, x_pow => polyEvalLoop q rest x (y + c * x_pow) (x_pow * x)

/-- The coefficient list of math.rs lines 100-109: constant term `secret`,
then `threshold - 1` (saturating) random coefficients. -/
def resharingCoeffs (q : ℕ) (secret : ZMod q) (threshold : ℕ) (rand : ℕ → ZMod q) :
    List (ZMod q) :=
  secret :: (List.range (threshold - 1)).map rand

/-- `generate_polynomial_shares` (math.rs lines 93-129): evaluate the
polynomial at `x = 1, ..., n`; the random coefficients are the explicit
stream `rand`. -/
def generate_polynomial_shares (q : ℕ) (secret : ZMod q) (threshold n : ℕ)
    (rand : ℕ → ZMod q) : List (ZMod q) :=
  (List.range n).map (fun j =>
    polyEvalLoop q (resharingCoeffs q secret threshold rand) (((j + 1 : ℕ)) : ZMod q) 0 1)

/-! ## src/bridge/common.rs: the interchange record -/

/-- `PortableKeyShare`: the canonical interchange record.  `y_hex` is the
compressed public-key hex string; it is carried around untouched by the
functions below, so its contents stay uninterpreted. -/
structure PortableKeyShare where
  i : ℕ
  t : ℕ
  n : ℕ
  x_hex : List Char
  y_hex : List Char
deriving DecidableEq

instance : Inhabited PortableKeyShare :=
  ⟨⟨0, 0, 0, [], []⟩⟩

/-! ## src/bridge/core.rs -/

/-- `generate_resharing_polynomial` (core.rs lines 59-89): decode the
additive share, generate `n` polynomial shares, re-encode them. -/
def generate_resharing_polynomial (q w : ℕ) (additive_share_hex : List Char)
    (threshold n : ℕ) (rand : ℕ → ZMod q) : Option (List (List Char)) :=
  match decode_scalar q w additive_share_hex with
  | none => none
  | some secret =>
    some ((generate_polynomial_shares q secret threshold n rand).map (encode_scalar q w))

/-- `sort_by_key(|s| s.i)` of core.rs line 116. -/
def sortByIndex (recs : List PortableKeyShare) : List PortableKeyShare :=
  recs.mergeSort (fun a b => a.i ≤ b.i)

/-- `additive_portable_to_shamir_portable` (core.rs lines 109-153): sort by
index, let every party generate a resharing polynomial for its additive
share, then let every party sum the sub-shares sent to it; only the `x_hex`
and `t` fields of the records are rewritten.  `rand i` is the coefficient
stream of party `i`'s polynomial. -/
def additive_portable_to_shamir_portable (q w : ℕ)
    (additive_shares : List PortableKeyShare) (threshold : ℕ)
    (rand : ℕ → ℕ → ZMod q) : Option (List PortableKeyShare) :=
  let n := additive_shares.length
  let sorted := sortByIndex additive_shares
  match (List.range n).mapM (fun i =>
      generate_resharing_polynomial q w (sorted.getD i default).x_hex threshold n (rand i)) with
  | none => none
  | some shares_sent =>
    (List.range n).mapM (fun j =>
      match (List.range n).foldlM (fun acc i =>
          (decode_scalar q w ((shares_sent.getD i []).getD j [])).map (fun s => acc + s))
          (0 : ZMod q) with
      | none => none
      | some sum_scalar =>
        some { sorted.getD j default with x_hex := encode_scalar q w sum_scalar, t := threshold })

/-- `shamir_portable_to_additive_portable` (core.rs lines 173-204): decode
the share, multiply by the Lagrange coefficient at point `i + 1` over the
quorum, re-encode, and set the threshold to `n`. -/
def shamir_portable_to_additive_portable (q w : ℕ) (share : PortableKeyShare)
    (all_indices : List ℕ) : Option PortableKeyShare :=
  match decode_scalar q w share.x_hex with
  | none => none
  | some secret =>
    match calculate_lagrange_coefficient q (share.i + 1) all_indices with
    | none => none
    | some lambda =>
      some { share with x_hex := encode_scalar q w (secret * lambda), t := share.n }

/-! ## src/bridge/cggmp.rs: global parameter reconstruction -/

inductive ReconstructError where
  | malformedHex
  | emptyInput
  | insufficientShares
  | inversionFailed
deriving DecidableEq

/-- One pass of the synthetic-division loop of cggmp.rs lines 186-189:
multiply the fixed-length coefficient vector by `(X - xj)`, reading the
old `poly[k-1]` before it is overwritten (the loop runs downwards). -/
def synthStep (q : ℕ) (xj : ZMod q) (poly : List (ZMod q)) : List (ZMod q) :=
  List.zipWith (fun prev cur => prev - xj * cur) (0 :: poly) poly

/-- The basis-polynomial coefficients accumulated for the present share at
position `k` (cggmp.rs lines 178-190). -/
def basisPolyAt (q : ℕ) (nodes : List (ZMod q)) (k : ℕ) : List (ZMod q) :=
  (nodes.eraseIdx k).foldl (fun p xj => synthStep q xj p)
    (1 :: List.replicate (nodes.length - 1) 0)

/-- The Lagrange denominator for the present share at position `k`
(cggmp.rs lines 168-175). -/
def denomAt (q : ℕ) (nodes : List (ZMod q)) (k : ℕ) : ZMod q :=
  (nodes.eraseIdx k).foldl (fun acc xj => acc * (nodes.getD k 0 - xj)) 1

/-- One iteration of the outer interpolation loop of cggmp.rs lines
166-195: invert the denominator (an error when it is zero) and accumulate
`yi * (poly[k] * inv_denom)` into every coefficient slot. -/
def reconStep (q : ℕ) (pts : List (ZMod q × EPoint q)) (coeffs : List (EPoint q))
    (k : ℕ) : Except ReconstructError (List (EPoint q)) :=
  match scalarInvert q (denomAt q (pts.map Prod.fst) k) with
  | none => Except.error ReconstructError.inversionFailed
  | some inv_denom =>
    Except.ok (List.zipWith
      (fun c pk => EPoint.add c (EPoint.smul (pts.getD k (0, EPoint.genMul q 0)).2 (pk * inv_denom)))
      coeffs (basisPolyAt q (pts.map Prod.fst) k))

/-- The full interpolation loop: commitment slots start at the zero point
`generator * 0`. -/
def reconCoeffs (q : ℕ) (pts : List (ZMod q × EPoint q)) :
    Except ReconstructError (List (EPoint q)) :=
  (List.range pts.length).foldlM (reconStep q pts)
    (List.replicate pts.length (EPoint.genMul q 0))

/-- The public-share evaluation loop of cggmp.rs lines 206-215: Horner-style
accumulation `y_point += coeff * x_pow`. -/
def evalCommit (q : ℕ) (coeffs : List (EPoint q)) (x : ZMod q) : EPoint q :=
  (coeffs.foldl (fun acc c => (EPoint.add acc.1 (EPoint.smul c acc.2), acc.2 * x))
    (EPoint.genMul q 0, 1)).1

/-- `reconstruct_global_params` (cggmp.rs lines 135-218): decode every
share with `from_be_bytes_mod_order` (a plain hex decode followed by a
modular reduction, no canonical check), pair it with evaluation point
`i + 1`, map it to the point `x · G`, run the checks and the interpolation,
and evaluate the commitment polynomial at points `1, ..., n`.  The final
hex serialisation of the resulting points is outside the model. -/
def reconstruct_global_params (q : ℕ) (refreshed_data : List PortableKeyShare) :
    Except ReconstructError (List (EPoint q) × List (EPoint q)) :=
  match refreshed_data.mapM (fun d =>
      (hexDecode d.x_hex).map (fun bytes =>
        ((((d.i + 1 : ℕ)) : ZMod q), EPoint.genMul q ((fromBytesBE bytes : ℕ) : ZMod q)))) with
  | none => Except.error ReconstructError.malformedHex
  | some shares_points =>
    if shares_points.length = 0 then Except.error ReconstructError.emptyInput
    else if shares_points.length < (refreshed_data.headD default).t then
      Except.error ReconstructError.insufficientShares
    else
      match reconCoeffs q shares_points with
      | Except.error e => Except.error e
      | Except.ok coeffs =>
        Except.ok (coeffs,
          (List.range (refreshed_data.headD default).n).map (fun i =>
            evalCommit q coeffs (((i + 1 : ℕ)) : ZMod q)))

/-! ## Specification-side helpers -/

/-- Standard power-sum evaluation of a coefficient list. -/
def sumPow (q : ℕ) : List (ZMod q) → ZMod q → ZMod q
  | [], _ => 0
  | c :: cs, x => c + x * sumPow q cs x

/-- The Lagrange interpolation weight at zero written as the explicit
product of the specification. -/
def lagrangeProduct (q : ℕ) (my_x : ZMod q) (xs : List (ZMod q)) : ZMod q :=
  ((xs.filter (fun y => y ≠ my_x)).map (fun y => y * (y - my_x)⁻¹)).prod

/-- The order of the secp256k1 scalar field, the modulus of `k256::Scalar`. -/
def secp256k1Order : ℕ :=
  115792089237316195423570985008687907852837564279074904382605163141518161494337

example : calculate_lagrange_coefficient 17 1 [1, 2, 2] = some 4 := by decide

example :
    generate_polynomial_shares 17 7 3 5 (fun k => [2, 5].getD k 0) =
      [14, 14, 7, 10, 6] := by decide

/-! ## The Lagrange loop computes the product of the specification -/

/-- Fermat inversion agrees with the field inverse on a prime field. -/
theorem zmod_pow_sub_two {q : ℕ} [Fact q.Prime] {x : ZMod q} (hx : x ≠ 0) :
    x ^ (q - 2) = x⁻¹ := by
  have h2 : 2 ≤ q := (Fact.out : q.Prime).two_le
  have h1 : x * x ^ (q - 2) = 1 := by
    have := ZMod.pow_card_sub_one_eq_one hx
    calc x * x ^ (q - 2) = x ^ (q - 2 + 1) := by rw [pow_succ, mul_comm]
    _ = x ^ (q - 1) := by congr 1; omega
    _ = 1 := this
  exact (inv_eq_of_mul_eq_one_right h1).symm

theorem lagrangeLoop_eq (q : ℕ) (my : ZMod q) (xs : List (ZMod q)) (acc : ZMod q) :
    lagrangeLoop q my xs acc =
      some (acc *
        ((xs.filter (fun y => y ≠ my)).map (fun y => y * (y - my) ^ (q - 2))).prod) := by
  induction xs generalizing acc with
  | nil => simp [lagrangeLoop]
  | cons x t ih =>
    by_cases h : x = my
    · subst h
      simp [lagrangeLoop, ih]
    · have hsub : x - my ≠ 0 := sub_ne_zero.mpr h
      simp only [lagrangeLoop, if_neg h, scalarInvert, if_neg hsub, ih, List.filter_cons]
      simp [h, mul_assoc]

theorem calculate_lagrange_coefficient_eq (q : ℕ) (p : ℕ) (idxs : List ℕ) :
    calculate_lagrange_coefficient q p idxs =
      some (((idxs.map (fun j => ((j : ℕ) : ZMod q))).filter
          (fun y => y ≠ ((p : ℕ) : ZMod q))).map
        (fun y => y * (y - ((p : ℕ) : ZMod q)) ^ (q - 2))).prod := by
  rw [calculate_lagrange_coefficient, lagrangeLoop_eq, one_mul]

/-- On a prime field the loop value is the `⁻¹`-product of the spec. -/
theorem calculate_lagrange_coefficient_eq_product (q : ℕ) [Fact q.Prime]
    (p : ℕ) (idxs : List ℕ) :
    calculate_lagrange_coefficient q p idxs =
      some (lagrangeProduct q ((p : ℕ) : ZMod q)
        (idxs.map (fun j => ((j : ℕ) : ZMod q)))) := by
  rw [calculate_lagrange_coefficient_eq, lagrangeProduct]
  congr 1
  refine congrArg List.prod ?_
  apply List.map_congr_left
  intro y hy
  have hne : y ≠ ((p : ℕ) : ZMod q) := by
    have := List.of_mem_filter hy
    simpa using this
  rw [zmod_pow_sub_two (sub_ne_zero.mpr hne)]

/-- C10: `calculate_lagrange_coefficient` is total: for every party index and
every index list, including duplicated entries and entries missing the
caller's point, the loop returns a scalar and the internal `invert().unwrap()`
never fails, because entries equal to the caller's point are skipped before
the denominator is inverted. -/
theorem claim_C10_lagrange_total (q : ℕ) (party_index : ℕ) (all_indices : List ℕ) :
    ∃ lam : ZMod q, calculate_lagrange_coefficient q party_index all_indices = some lam :=
  ⟨_, calculate_lagrange_coefficient_eq q party_index all_indices⟩

/-- C5 (counterexample): on the secp256k1 scalar field, a point set with the
repeated coordinate `2` does not make the Lagrange computation fail: it
returns a scalar (the claimed `DuplicatePoint` rejection does not exist). -/
theorem claim_C5_counterexample :
    calculate_lagrange_coefficient secp256k1Order 1 [1, 2, 2] ≠ none := by
  rw [calculate_lagrange_coefficient_eq]
  simp

/-- C5 (amended): `calculate_lagrange_coefficient` performs no duplicate-point
check and has no error return: for every `my_point` and `all_points`, also
with repeated coordinates, it returns the scalar obtained by skipping the
entries equal to `my_point` and multiplying the factor
`x_j * (x_j - my_point)⁻¹` once per remaining occurrence. -/
theorem claim_C5_amended (q : ℕ) [Fact q.Prime] (my_point : ℕ) (all_points : List ℕ) :
    calculate_lagrange_coefficient q my_point all_points =
      some (lagrangeProduct q ((my_point : ℕ) : ZMod q)
        (all_points.map (fun j => ((j : ℕ) : ZMod q)))) :=
  calculate_lagrange_coefficient_eq_product q my_point all_points

theorem claim_C5_amended_witness :
    Nat.Prime 17 ∧
      calculate_lagrange_coefficient 17 1 [1, 2, 2] =
        some (lagrangeProduct 17 ((1 : ℕ) : ZMod 17)
          ([1, 2, 2].map (fun j => ((j : ℕ) : ZMod 17)))) :=
  ⟨by norm_num, @claim_C5_amended 17 ⟨by norm_num⟩ 1 [1, 2, 2]⟩

/-- C6: for every `my_point` contained in `all_points` with pairwise distinct
field coordinates, the Lagrange coefficient equals the product over the
other points of `x_j * (x_j - my_point)⁻¹`, and the computation is
deterministic: two runs on equal inputs return equal scalars. -/
theorem claim_C6_lagrange_formula (q : ℕ) [Fact q.Prime] (my_point : ℕ)
    (all_points : List ℕ)
    (hmem : my_point ∈ all_points)
    (hnd : (all_points.map (fun j => ((j : ℕ) : ZMod q))).Nodup) :
    calculate_lagrange_coefficient q my_point all_points =
      some (lagrangeProduct q ((my_point : ℕ) : ZMod q)
        (all_points.map (fun j => ((j : ℕ) : ZMod q)))) ∧
    calculate_lagrange_coefficient q my_point all_points =
      calculate_lagrange_coefficient q my_point all_points :=
  ⟨calculate_lagrange_coefficient_eq_product q my_point all_points, rfl⟩

theorem claim_C6_witness :
    Nat.Prime 17 ∧ 1 ∈ [1, 2, 3] ∧
      ([1, 2, 3].map (fun j => ((j : ℕ) : ZMod 17))).Nodup ∧
      calculate_lagrange_coefficient 17 1 [1, 2, 3] =
        some (lagrangeProduct 17 ((1 : ℕ) : ZMod 17)
          ([1, 2, 3].map (fun j => ((j : ℕ) : ZMod 17)))) :=
  ⟨by norm_num, by decide, by decide,
    (@claim_C6_lagrange_formula 17 ⟨by norm_num⟩ 1 [1, 2, 3] (by decide) (by decide)).1⟩

/-! ## Polynomial share generation (C8) -/

theorem polyEvalLoop_eq (q : ℕ) (cs : List (ZMod q)) (x y x_pow : ZMod q) :
    polyEvalLoop q cs x y x_pow = y + x_pow * sumPow q cs x := by
  induction cs generalizing y x_pow with
  | nil => simp [polyEvalLoop, sumPow]
  | cons c t ih =>
    simp only [polyEvalLoop, sumPow, ih]
    ring

theorem generate_polynomial_shares_getD (q : ℕ) (s : ZMod q) (t n : ℕ)
    (rand : ℕ → ZMod q) {j : ℕ} (hj : j < n) :
    (generate_polynomial_shares q s t n rand).getD j 0 =
      sumPow q (resharingCoeffs q s t rand) (((j + 1 : ℕ)) : ZMod q) := by
  rw [generate_polynomial_shares]
  rw [List.getD_eq_getElem _ _ (by simpa using hj)]
  simp [polyEvalLoop_eq]

/-- C8: `generate_polynomial_shares` is total, returns exactly `n` shares,
the `j`-th share (1-based) being the power-sum evaluation at `x = j` of the
coefficient list of length `max t 1` whose constant term is the secret; for
`t = 0` or `t = 1` the polynomial is constant-only and every returned share
equals the secret. -/
theorem claim_C8_share_generation (q : ℕ) (s : ZMod q) (t n : ℕ) (rand : ℕ → ZMod q) :
    (generate_polynomial_shares q s t n rand).length = n ∧
    (resharingCoeffs q s t rand).length = max t 1 ∧
    (resharingCoeffs q s t rand).headD 0 = s ∧
    (∀ j, j < n →
      (generate_polynomial_shares q s t n rand).getD j 0 =
        sumPow q (resharingCoeffs q s t rand) (((j + 1 : ℕ)) : ZMod q)) ∧
    (t ≤ 1 → ∀ j, j < n → (generate_polynomial_shares q s t n rand).getD j 0 = s) := by
  refine ⟨by simp [generate_polynomial_shares], ?_, rfl,
    fun j hj => generate_polynomial_shares_getD q s t n rand hj, ?_⟩
  · simp only [resharingCoeffs, List.length_cons, List.length_map, List.length_range]
    omega
  · intro ht j hj
    rw [generate_polynomial_shares_getD q s t n rand hj]
    have hcs : resharingCoeffs q s t rand = [s] := by
      have : t - 1 = 0 := by omega
      simp [resharingCoeffs, this]
    rw [hcs]
    simp [sumPow]

theorem claim_C8_witness :
    (2 : ℕ) < 5 ∧ (3 : ℕ) ≤ 1 ∨
      ((generate_polynomial_shares 17 7 3 5 (fun k => [2, 5].getD k 0)).getD 2 0 =
          sumPow 17 (resharingCoeffs 17 7 3 (fun k => [2, 5].getD k 0)) ((3 : ℕ) : ZMod 17) ∧
        (generate_polynomial_shares 17 7 1 5 (fun k => [2, 5].getD k 0)).getD 2 0 = 7) :=
  Or.inr
    ⟨(claim_C8_share_generation 17 7 3 5 (fun k => [2, 5].getD k 0)).2.2.2.1 2 (by decide),
      (claim_C8_share_generation 17 7 1 5 (fun k => [2, 5].getD k 0)).2.2.2.2
        (by decide) 2 (by decide)⟩

/-! ## Scalar codec round trip (C7) -/

theorem toBytesBE_length (w v : ℕ) : (toBytesBE w v).length = w := by
  induction w generalizing v with
  | zero => rfl
  | succ wd ih => simp [toBytesBE, ih]

theorem toBytesBE_lt (w v : ℕ) : ∀ b ∈ toBytesBE w v, b < 256 := by
  induction w generalizing v with
  | zero => simp [toBytesBE]
  | succ wd ih =>
    intro b hb
    rw [toBytesBE, List.mem_append] at hb
    rcases hb with hb | hb
    · exact ih _ b hb
    · simp only [List.mem_singleton] at hb
      subst hb
      exact Nat.mod_lt _ (by norm_num)

theorem fromBytesBE_append_singleton (l : List ℕ) (b : ℕ) :
    fromBytesBE (l ++ [b]) = fromBytesBE l * 256 + b := by
  simp [fromBytesBE, List.foldl_append]

theorem fromBytesBE_toBytesBE (w v : ℕ) :
    fromBytesBE (toBytesBE w v) = v % 256 ^ w := by
  induction w generalizing v with
  | zero => simp [toBytesBE, fromBytesBE, Nat.mod_one]
  | succ wd ih =>
    rw [toBytesBE, fromBytesBE_append_singleton, ih]
    have h1 : v = 256 * (v / 256) + v % 256 := (Nat.div_add_mod v 256).symm
    have h2 : v / 256 = 256 ^ wd * (v / 256 / 256 ^ wd) + v / 256 % 256 ^ wd :=
      (Nat.div_add_mod (v / 256) (256 ^ wd)).symm
    have h3 : v % 256 ^ (wd + 1) = v / 256 % 256 ^ wd * 256 + v % 256 := by
      conv_lhs => rw [h1]
      conv_lhs => rw [h2]
      have hpow : 256 ^ (wd + 1) = 256 ^ wd * 256 := by ring
      rw [hpow]
      have hlt : v / 256 % 256 ^ wd * 256 + v % 256 < 256 ^ wd * 256 := by
        have ha : v / 256 % 256 ^ wd < 256 ^ wd :=
          Nat.mod_lt _ (Nat.pos_pow_of_pos wd (by norm_num))
        have hr : v % 256 < 256 := Nat.mod_lt _ (by norm_num)
        calc v / 256 % 256 ^ wd * 256 + v % 256
            ≤ (256 ^ wd - 1) * 256 + v % 256 := by
              have := Nat.le_sub_one_of_lt ha
              exact Nat.add_le_add_right (Nat.mul_le_mul_right 256 this) _
          _ < 256 ^ wd * 256 := by
              have hp : 1 ≤ 256 ^ wd := Nat.one_le_pow wd 256 (by norm_num)
              calc (256 ^ wd - 1) * 256 + v % 256 < (256 ^ wd - 1) * 256 + 256 :=
                    Nat.add_lt_add_left hr _
                _ = 256 ^ wd * 256 - 256 + 256 := by rw [Nat.sub_mul, one_mul]
                _ = 256 ^ wd * 256 := by
                    have : 256 ≤ 256 ^ wd * 256 := Nat.le_mul_of_pos_left 256 hp
                    omega
      calc (256 * (256 ^ wd * (v / 256 / 256 ^ wd) + v / 256 % 256 ^ wd) + v % 256) %
            (256 ^ wd * 256)
          = ((256 ^ wd * 256) * (v / 256 / 256 ^ wd) +
              (v / 256 % 256 ^ wd * 256 + v % 256)) % (256 ^ wd * 256) := by ring_nf
        _ = (v / 256 % 256 ^ wd * 256 + v % 256) % (256 ^ wd * 256) := by
              rw [Nat.mul_add_mod]
        _ = v / 256 % 256 ^ wd * 256 + v % 256 := Nat.mod_eq_of_lt hlt
    omega

theorem hexVal_hexDigitChar : ∀ k, k < 16 → hexVal (hexDigitChar k) = some k := by
  decide

theorem hexDigitChar_mem_alphabet : ∀ k, k < 16 → hexDigitChar k ∈ hexAlphabet := by
  decide

theorem hexDigitChar_ne_x : ∀ k, k < 16 → hexDigitChar k ≠ 'x' := by
  decide

theorem hexEncodeBytes_length (bs : List ℕ) :
    (hexEncodeBytes bs).length = 2 * bs.length := by
  induction bs with
  | nil => rfl
  | cons b t ih => simp [hexEncodeBytes, ih]; ring

theorem hexDecode_hexEncodeBytes (bs : List ℕ) (hlt : ∀ b ∈ bs, b < 256) :
    hexDecode (hexEncodeBytes bs) = some bs := by
  induction bs with
  | nil => rfl
  | cons b t ih =>
    have hb : b < 256 := hlt b (List.mem_cons_self b t)
    have hhi : b / 16 < 16 := Nat.div_lt_of_lt_mul hb
    have hlo : b % 16 < 16 := Nat.mod_lt _ (by norm_num)
    rw [hexEncodeBytes, hexDecode, hexVal_hexDigitChar _ hhi, hexVal_hexDigitChar _ hlo,
      ih (fun x hx => hlt x (List.mem_cons_of_mem b hx))]
    simp [Nat.div_add_mod]

theorem hexEncodeBytes_mem_alphabet (bs : List ℕ) (hlt : ∀ b ∈ bs, b < 256) :
    ∀ c ∈ hexEncodeBytes bs, c ∈ hexAlphabet := by
  induction bs with
  | nil => simp [hexEncodeBytes]
  | cons b t ih =>
    have hb : b < 256 := hlt b (List.mem_cons_self b t)
    intro c hc
    rw [hexEncodeBytes] at hc
    rcases hc with _ | ⟨_, hc⟩
    · exact hexDigitChar_mem_alphabet _ (Nat.div_lt_of_lt_mul hb)
    · rcases hc with _ | ⟨_, hc⟩
      · exact hexDigitChar_mem_alphabet _ (Nat.mod_lt _ (by norm_num))
      · exact ih (fun x hx => hlt x (List.mem_cons_of_mem b hx)) c hc

theorem strip_0x_hexEncodeBytes (bs : List ℕ) (hlt : ∀ b ∈ bs, b < 256) :
    strip_0x (hexEncodeBytes bs) = hexEncodeBytes bs := by
  cases bs with
  | nil => rfl
  | cons b t =>
    have hb : b < 256 := hlt b (List.mem_cons_self b t)
    have hx : hexDigitChar (b % 16) ≠ 'x' :=
      hexDigitChar_ne_x _ (Nat.mod_lt _ (by norm_num))
    rw [hexEncodeBytes, strip_0x]
    rw [if_neg]
    rintro ⟨-, h2⟩
    exact hx h2

theorem decode_encode_scalar (q w : ℕ) [NeZero q] (hq : q ≤ 256 ^ w) (s : ZMod q) :
    decode_scalar q w (encode_scalar q w s) = some s := by
  have hval : s.val < q := ZMod.val_lt s
  have hbytes : ∀ b ∈ toBytesBE w s.val, b < 256 := toBytesBE_lt w s.val
  rw [decode_scalar, encode_scalar, strip_0x_hexEncodeBytes _ hbytes]
  have hpad : pad_hex (hexEncodeBytes (toBytesBE w s.val)) =
      hexEncodeBytes (toBytesBE w s.val) := by
    rw [pad_hex, if_neg]
    rw [hexEncodeBytes_length]
    omega
  rw [hpad, hexDecode_hexEncodeBytes _ hbytes]
  simp only [toBytesBE_length, Nat.lt_irrefl, if_false, Nat.sub_self, List.replicate,
    List.nil_append]
  rw [fromBytesBE_toBytesBE]
  have hmod : s.val % 256 ^ w = s.val := Nat.mod_eq_of_lt (lt_of_lt_of_le hval hq)
  rw [hmod, if_pos hval, ZMod.natCast_rightInverse s]

theorem decode_encode_scalar_prefixed (q w : ℕ) [NeZero q] (hq : q ≤ 256 ^ w)
    (s : ZMod q) :
    decode_scalar q w ('0' :: 'x' :: encode_scalar q w s) = some s := by
  have h := decode_encode_scalar q w hq s
  rw [decode_scalar] at h ⊢
  rw [strip_0x, if_pos ⟨rfl, rfl⟩]
  exact h

/-- C7: on the secp256k1 scalar field, encoding any scalar yields a
64-hex-digit zero-padded lowercase string with no `0x` prefix; the decode
path (strip, pad, hex-decode, left-pad to 32 bytes, canonical `from_repr`)
returns exactly the scalar, and also accepts an optional `0x` prefix. -/
theorem claim_C7_codec_roundtrip (s : ZMod secp256k1Order) :
    (encode_scalar secp256k1Order 32 s).length = 64 ∧
    (∀ c ∈ encode_scalar secp256k1Order 32 s, c ∈ hexAlphabet) ∧
    decode_scalar secp256k1Order 32 (encode_scalar secp256k1Order 32 s) = some s ∧
    decode_scalar secp256k1Order 32
      ('0' :: 'x' :: encode_scalar secp256k1Order 32 s) = some s := by
  have hne : NeZero secp256k1Order := ⟨by rw [secp256k1Order]; norm_num⟩
  have hq : secp256k1Order ≤ 256 ^ 32 := by rw [secp256k1Order]; norm_num
  refine ⟨?_, ?_, decode_encode_scalar _ _ hq s, decode_encode_scalar_prefixed _ _ hq s⟩
  · rw [encode_scalar, hexEncodeBytes_length, toBytesBE_length]
  · exact hexEncodeBytes_mem_alphabet _ (toBytesBE_lt 32 _)

/-! ## Shamir to additive conversion (C3) and converter frames (C9) -/

/-- C3: whenever the record's share decodes to a scalar `x`,
`shamir_portable_to_additive_portable` succeeds and returns the record
whose share is `x` multiplied by the Lagrange coefficient at evaluation
point `i + 1` over the given point set, with the threshold field set to
the record's party count. -/
theorem claim_C3_shamir_to_additive (q w : ℕ) (share : PortableKeyShare)
    (all_indices : List ℕ) (x : ZMod q)
    (hdec : decode_scalar q w share.x_hex = some x) :
    ∃ lam out,
      calculate_lagrange_coefficient q (share.i + 1) all_indices = some lam ∧
      shamir_portable_to_additive_portable q w share all_indices = some out ∧
      out.x_hex = encode_scalar q w (x * lam) ∧
      out.t = out.n ∧ out.n = share.n := by
  obtain ⟨lam, hlam⟩ : ∃ lam, calculate_lagrange_coefficient q (share.i + 1) all_indices =
      some lam := ⟨_, calculate_lagrange_coefficient_eq q (share.i + 1) all_indices⟩
  exact ⟨lam, { share with x_hex := encode_scalar q w (x * lam), t := share.n }, hlam,
    by rw [shamir_portable_to_additive_portable, hdec, hlam], rfl, rfl, rfl⟩

theorem claim_C3_witness :
    decode_scalar 17 1 (⟨0, 2, 3, ['0', '3'], []⟩ : PortableKeyShare).x_hex = some 3 ∧
      ∃ lam out,
        calculate_lagrange_coefficient 17 ((⟨0, 2, 3, ['0', '3'], []⟩ : PortableKeyShare).i + 1)
          [1, 2, 3] = some lam ∧
        shamir_portable_to_additive_portable 17 1 ⟨0, 2, 3, ['0', '3'], []⟩ [1, 2, 3] =
          some out ∧
        out.x_hex = encode_scalar 17 1 (3 * lam) ∧
        out.t = out.n ∧ out.n = (⟨0, 2, 3, ['0', '3'], []⟩ : PortableKeyShare).n :=
  ⟨by decide, claim_C3_shamir_to_additive 17 1 ⟨0, 2, 3, ['0', '3'], []⟩ [1, 2, 3] 3 (by decide)⟩

theorem mapM_option_eq_some {α β : Type} [Inhabited α] [Inhabited β] (f : α → Option β) :
    ∀ (l : List α) (out : List β), l.mapM f = some out →
      out.length = l.length ∧
        ∀ k, k < l.length → f (l.getD k default) = some (out.getD k default) := by
  intro l
  induction l with
  | nil =>
    intro out h
    simp only [List.mapM_nil] at h
    cases h
    exact ⟨rfl, fun k hk => absurd hk (by simp)⟩
  | cons a t ih =>
    intro out h
    rw [List.mapM_cons] at h
    cases hfa : f a with
    | none => rw [hfa] at h; simp at h
    | some b =>
      rw [hfa] at h
      cases hft : t.mapM f with
      | none => rw [hft] at h; simp at h
      | some ts =>
        rw [hft] at h
        simp at h
        subst h
        obtain ⟨hlen, hpt⟩ := ih ts hft
        refine ⟨by simp [hlen], fun k hk => ?_⟩
        cases k with
        | zero => simpa using hfa
        | succ k' =>
          simp only [List.getD_cons_succ]
          exact hpt k' (by simpa using hk)

/-- C9: the converters only rewrite the `x_hex` and `t` fields.
`shamir_portable_to_additive_portable` returns its record with `i`, `n` and
`y_hex` untouched; `additive_portable_to_shamir_portable` returns the
records of its input list (reordered by the stable sort on `i`, a
permutation of the input) with the `i`, `n` and `y_hex` of every record
untouched. -/
theorem claim_C9_converter_frames (q w : ℕ) :
    (∀ (share : PortableKeyShare) (all_indices : List ℕ) (out : PortableKeyShare),
      shamir_portable_to_additive_portable q w share all_indices = some out →
        out.i = share.i ∧ out.n = share.n ∧ out.y_hex = share.y_hex) ∧
    (∀ (recs : List PortableKeyShare) (threshold : ℕ) (rand : ℕ → ℕ → ZMod q)
        (out : List PortableKeyShare),
      additive_portable_to_shamir_portable q w recs threshold rand = some out →
        (sortByIndex recs).Perm recs ∧
        out.length = recs.length ∧
        ∀ j, j < recs.length →
          (out.getD j default).i = ((sortByIndex recs).getD j default).i ∧
          (out.getD j default).n = ((sortByIndex recs).getD j default).n ∧
          (out.getD j default).y_hex = ((sortByIndex recs).getD j default).y_hex) := by
  constructor
  · intro share all_indices out h
    rw [shamir_portable_to_additive_portable] at h
    cases hdec : decode_scalar q w share.x_hex with
    | none => rw [hdec] at h; simp at h
    | some x =>
      rw [hdec, calculate_lagrange_coefficient_eq] at h
      simp only [Option.some.injEq] at h
      subst h
      exact ⟨rfl, rfl, rfl⟩
  · intro recs threshold rand out h
    refine ⟨List.mergeSort_perm recs _, ?_⟩
    rw [additive_portable_to_shamir_portable] at h
    cases hm : (List.range recs.length).mapM (fun i =>
        generate_resharing_polynomial q w
          ((sortByIndex recs).getD i default).x_hex threshold recs.length (rand i)) with
    | none => rw [hm] at h; simp at h
    | some shares_sent =>
      rw [hm] at h
      obtain ⟨hlen, hpt⟩ := mapM_option_eq_some _ _ _ h
      simp only [List.length_range] at hlen
      refine ⟨hlen, fun j hj => ?_⟩
      have := hpt j (by simpa using hj)
      rw [List.getD_eq_getElem _ _ (by simpa using hj), List.getElem_range] at this
      cases hf : (List.range recs.length).foldlM (fun acc i =>
          (decode_scalar q w ((shares_sent.getD i []).getD j [])).map fun s => acc + s)
          (0 : ZMod q) with
      | none => rw [hf] at this; simp at this
      | some sum_scalar =>
        rw [hf] at this
        simp only [Option.some.injEq] at this
        rw [← this]
        exact ⟨rfl, rfl, rfl⟩

unseal List.merge List.mergeSort in
theorem claim_C9_witness :
    (shamir_portable_to_additive_portable 17 1 ⟨0, 2, 3, ['0', '3'], []⟩ [1, 2, 3] =
        some ⟨0, 3, 3, encode_scalar 17 1 (3 * 3), []⟩ ∧
      (0 : ℕ) = 0 ∧ (3 : ℕ) = 3 ∧ ([] : List Char) = []) ∧
    (additive_portable_to_shamir_portable 17 1
        [⟨0, 2, 2, ['0', '3'], []⟩, ⟨1, 2, 2, ['0', '4'], []⟩] 2 (fun _ _ => 1) =
        some [⟨0, 2, 2, ['0', '9'], []⟩, ⟨1, 2, 2, ['0', 'b'], []⟩] ∧
      (sortByIndex [⟨0, 2, 2, ['0', '3'], []⟩, ⟨1, 2, 2, ['0', '4'], []⟩]).Perm
        [⟨0, 2, 2, ['0', '3'], []⟩, ⟨1, 2, 2, ['0', '4'], []⟩] ∧
      (2 : ℕ) = 2) := by
  have h1 := (claim_C9_converter_frames 17 1).1 ⟨0, 2, 3, ['0', '3'], []⟩ [1, 2, 3]
    ⟨0, 3, 3, encode_scalar 17 1 (3 * 3), []⟩
  have h2 := (claim_C9_converter_frames 17 1).2
    [⟨0, 2, 2, ['0', '3'], []⟩, ⟨1, 2, 2, ['0', '4'], []⟩] 2 (fun _ _ => 1)
    [⟨0, 2, 2, ['0', '9'], []⟩, ⟨1, 2, 2, ['0', 'b'], []⟩]
  refine ⟨⟨by decide, ?_⟩, ⟨by decide, ?_, rfl⟩⟩
  · have := h1 (by decide)
    exact ⟨this.1, this.2.1, this.2.2⟩
  · exact (h2 (by decide)).1

/-! ## Lagrange interpolation at zero, in list form -/

theorem list_toFinset_erase {α : Type} [DecidableEq α] (l : List α) (hl : l.Nodup)
    (a : α) : (l.erase a).toFinset = l.toFinset.erase a := by
  ext x
  simp [List.mem_toFinset, hl.mem_erase_iff, Finset.mem_erase]

theorem neg_mul_inv_sub {q : ℕ} [Fact q.Prime] (x y : ZMod q) :
    (x - y)⁻¹ * (0 - y) = y * (y - x)⁻¹ := by
  have h : y - x = -(x - y) := by ring
  rw [h, inv_neg, zero_sub]
  ring

/-- The weighted sum of the values of a polynomial of degree below the
number of pairwise distinct nodes, weighted with the Lagrange factors at
zero, recovers the value at zero. -/
theorem lagrange_sum_at_zero (q : ℕ) [Fact q.Prime] (nodes : List (ZMod q))
    (hnd : nodes.Nodup) (f : Polynomial (ZMod q))
    (hdeg : f.degree < (nodes.length : ℕ)) :
    (nodes.map (fun x =>
        f.eval x * ((nodes.erase x).map (fun y => y * (y - x)⁻¹)).prod)).sum =
      f.eval 0 := by
  classical
  have hinj : Set.InjOn id (↑nodes.toFinset : Set (ZMod q)) := Function.injective_id.injOn
  have hcard : nodes.toFinset.card = nodes.length := List.toFinset_card_of_nodup hnd
  have hf := Lagrange.eq_interpolate (s := nodes.toFinset) (v := id) hinj
    (by rw [hcard]; exact hdeg)
  conv_rhs => rw [hf]
  rw [Lagrange.interpolate_apply, Polynomial.eval_finset_sum]
  have hterm : ∀ x ∈ nodes.toFinset,
      (Polynomial.C (f.eval (id x)) * Lagrange.basis nodes.toFinset id x).eval 0 =
        f.eval x * ((nodes.erase x).map (fun y => y * (y - x)⁻¹)).prod := by
    intro x hx
    rw [Polynomial.eval_mul, Polynomial.eval_C, id]
    congr 1
    rw [Lagrange.basis, Polynomial.eval_prod,
      ← list_toFinset_erase nodes hnd x, List.prod_toFinset _ (hnd.erase x)]
    refine congrArg List.prod (List.map_congr_left ?_)
    intro y hy
    rw [Lagrange.basisDivisor, Polynomial.eval_mul, Polynomial.eval_C,
      Polynomial.eval_sub, Polynomial.eval_X, Polynomial.eval_C, id, id]
    exact neg_mul_inv_sub x y
  rw [Finset.sum_congr rfl hterm, List.sum_toFinset _ hnd]

theorem map_range_getD {α β : Type} (l : List α) (d : α) (g : α → β) :
    (List.range l.length).map (fun k => g (l.getD k d)) = l.map g := by
  induction l with
  | nil => rfl
  | cons a t ih =>
    rw [List.length_cons, List.range_succ_eq_map, List.map_cons, List.map_map]
    simp only [List.getD_cons_zero, Function.comp_def, List.getD_cons_succ, List.map_cons]
    rw [ih]

/-- Position-indexed form of `lagrange_sum_at_zero`, matching the loop of
the reconstructor. -/
theorem lagrange_sum_at_zero_pos (q : ℕ) [Fact q.Prime] (nodes : List (ZMod q))
    (hnd : nodes.Nodup) (f : Polynomial (ZMod q))
    (hdeg : f.degree < (nodes.length : ℕ)) :
    ((List.range nodes.length).map (fun k =>
        f.eval (nodes.getD k 0) *
          ((nodes.eraseIdx k).map (fun y => y * (y - nodes.getD k 0)⁻¹)).prod)).sum =
      f.eval 0 := by
  have hstep : ∀ k ∈ List.range nodes.length,
      f.eval (nodes.getD k 0) *
          ((nodes.eraseIdx k).map (fun y => y * (y - nodes.getD k 0)⁻¹)).prod =
        f.eval (nodes.getD k 0) *
          ((nodes.erase (nodes.getD k 0)).map
            (fun y => y * (y - nodes.getD k 0)⁻¹)).prod := by
    intro k hk
    rw [List.mem_range] at hk
    have hg : nodes.getD k 0 = nodes.get ⟨k, hk⟩ := by
      rw [List.getD_eq_getElem _ _ hk, List.get_eq_getElem]
    rw [hg, hnd.erase_get ⟨k, hk⟩]
  rw [List.map_congr_left hstep,
    map_range_getD nodes 0 (fun x =>
      f.eval x * ((nodes.erase x).map (fun y => y * (y - x)⁻¹)).prod)]
  exact lagrange_sum_at_zero q nodes hnd f hdeg

/-! ## The coefficient lists as polynomials -/

theorem eval_foldr_poly (q : ℕ) (cs : List (ZMod q)) (x : ZMod q) :
    (cs.foldr (fun c p => Polynomial.C c + Polynomial.X * p) 0).eval x = sumPow q cs x := by
  induction cs with
  | nil => simp [sumPow]
  | cons c t ih => simp [sumPow, ih]

theorem degree_foldr_poly (q : ℕ) [Fact q.Prime] (cs : List (ZMod q)) :
    (cs.foldr (fun c p => Polynomial.C c + Polynomial.X * p) 0).degree <
      ((cs.length : ℕ) : WithBot ℕ) := by
  induction cs with
  | nil =>
    simp only [List.foldr_nil, Polynomial.degree_zero, List.length_nil, Nat.cast_zero]
    exact WithBot.bot_lt_coe 0
  | cons c t ih =>
    rw [List.foldr_cons, List.length_cons]
    set p := t.foldr (fun c p => Polynomial.C c + Polynomial.X * p) 0 with hp
    by_cases hfull : Polynomial.C c + Polynomial.X * p = 0
    · rw [hfull, Polynomial.degree_zero]
      exact WithBot.bot_lt_coe _
    · have hnat : (Polynomial.C c + Polynomial.X * p).natDegree ≤ t.length := by
        refine (Polynomial.natDegree_add_le _ _).trans ?_
        rw [max_le_iff, Polynomial.natDegree_C]
        refine ⟨Nat.zero_le _, ?_⟩
        by_cases hpz : p = 0
        · simp [hpz]
        · rw [Polynomial.natDegree_X_mul hpz]
          have hlt : p.natDegree < t.length := by
            have h := ih
            rwa [Polynomial.degree_eq_natDegree hpz, Nat.cast_lt] at h
          omega
      rw [Polynomial.degree_eq_natDegree hfull, Nat.cast_lt]
      omega

/-! ## Evaluating the reconstruction loops -/

theorem synthStep_length (q : ℕ) (xj : ZMod q) (p : List (ZMod q)) :
    (synthStep q xj p).length = p.length := by
  simp [synthStep]

theorem foldl_synth_length (q : ℕ) (l : List (ZMod q)) (p : List (ZMod q)) :
    (l.foldl (fun p xj => synthStep q xj p) p).length = p.length := by
  induction l generalizing p with
  | nil => rfl
  | cons x t ih => rw [List.foldl_cons, ih, synthStep_length]

theorem basisPolyAt_length (q : ℕ) (nodes : List (ZMod q)) (k : ℕ)
    (h : nodes ≠ []) : (basisPolyAt q nodes k).length = nodes.length := by
  rw [basisPolyAt, foldl_synth_length]
  have : 0 < nodes.length := List.length_pos.mpr h
  simp only [List.length_cons, List.length_replicate]
  omega

theorem synthStep_headD (q : ℕ) (xj : ZMod q) (p : List (ZMod q)) :
    (synthStep q xj p).headD 0 = -xj * p.headD 0 := by
  cases p with
  | nil => simp [synthStep]
  | cons c t =>
    simp only [synthStep, List.zipWith_cons_cons, List.headD_cons]
    ring

theorem foldl_synth_headD (q : ℕ) (l : List (ZMod q)) (p : List (ZMod q)) :
    (l.foldl (fun p x => synthStep q x p) p).headD 0 =
      (l.map (fun x => -x)).prod * p.headD 0 := by
  induction l generalizing p with
  | nil => simp
  | cons x t ih =>
    rw [List.foldl_cons, ih, synthStep_headD, List.map_cons, List.prod_cons]
    ring

theorem basisPolyAt_headD (q : ℕ) (nodes : List (ZMod q)) (k : ℕ) :
    (basisPolyAt q nodes k).headD 0 = ((nodes.eraseIdx k).map (fun x => -x)).prod := by
  rw [basisPolyAt, foldl_synth_headD]
  simp

theorem foldl_mul_eq {α : Type} (q : ℕ) (g : α → ZMod q) (l : List α) (c : ZMod q) :
    l.foldl (fun acc x => acc * g x) c = c * (l.map g).prod := by
  induction l generalizing c with
  | nil => simp
  | cons x t ih =>
    rw [List.foldl_cons, ih, List.map_cons, List.prod_cons]
    ring

theorem denomAt_eq (q : ℕ) (nodes : List (ZMod q)) (k : ℕ) :
    denomAt q nodes k =
      ((nodes.eraseIdx k).map (fun xj => nodes.getD k 0 - xj)).prod := by
  rw [denomAt, foldl_mul_eq, one_mul]

theorem prod_neg_mul_inv (q : ℕ) [Fact q.Prime] (l : List (ZMod q)) (x : ZMod q) :
    ((l.map (fun y => -y)).prod) * ((l.map (fun y => x - y)).prod)⁻¹ =
      (l.map (fun y => y * (y - x)⁻¹)).prod := by
  induction l with
  | nil => simp
  | cons y t ih =>
    simp only [List.map_cons, List.prod_cons, mul_inv]
    have key : -y * (x - y)⁻¹ = y * (y - x)⁻¹ := by
      rw [← neg_mul_inv_sub x y]
      ring
    calc -y * (t.map (fun y => -y)).prod * ((x - y)⁻¹ * ((t.map (fun y => x - y)).prod)⁻¹)
        = (-y * (x - y)⁻¹) *
            ((t.map (fun y => -y)).prod * ((t.map (fun y => x - y)).prod)⁻¹) := by ring
      _ = (y * (y - x)⁻¹) * (t.map (fun y => y * (y - x)⁻¹)).prod := by rw [key, ih]

theorem denomAt_ne_zero (q : ℕ) [Fact q.Prime] (nodes : List (ZMod q))
    (hnd : nodes.Nodup) (k : ℕ) (hk : k < nodes.length) :
    denomAt q nodes k ≠ 0 := by
  rw [denomAt_eq]
  apply List.prod_ne_zero
  intro hmem
  rw [List.mem_map] at hmem
  obtain ⟨y, hy, hyz⟩ := hmem
  have hzy : y = nodes.getD k 0 := (sub_eq_zero.mp hyz).symm
  have hgd : nodes.getD k 0 = nodes.get ⟨k, hk⟩ := by
    rw [List.getD_eq_getElem _ _ hk, List.get_eq_getElem]
  have herase : nodes.eraseIdx k = nodes.erase (nodes.get ⟨k, hk⟩) :=
    (hnd.erase_get ⟨k, hk⟩).symm
  rw [herase] at hy
  have hne := (hnd.mem_erase_iff.mp hy).1
  apply hne
  rw [hzy, hgd]

/-- The pure value of one interpolation iteration once the denominator is
known to be invertible. -/
theorem except_bind_ok {e a b : Type} (x : a) (f : a → Except e b) :
    (Except.ok x >>= f) = f x := rfl

theorem except_bind_error {e a b : Type} (err : e) (f : a → Except e b) :
    ((Except.error err : Except e a) >>= f) = Except.error err := rfl

def reconStepPure (q : ℕ) (pts : List (ZMod q × EPoint q)) (coeffs : List (EPoint q))
    (k : ℕ) : List (EPoint q) :=
  List.zipWith
    (fun c pk => EPoint.add c (EPoint.smul (pts.getD k (0, EPoint.genMul q 0)).2
      (pk * (denomAt q (pts.map Prod.fst) k)⁻¹)))
    coeffs (basisPolyAt q (pts.map Prod.fst) k)

theorem reconStep_ok (q : ℕ) [Fact q.Prime] (pts : List (ZMod q × EPoint q))
    (coeffs : List (EPoint q)) (k : ℕ)
    (hk : denomAt q (pts.map Prod.fst) k ≠ 0) :
    reconStep q pts coeffs k = Except.ok (reconStepPure q pts coeffs k) := by
  rw [reconStep, scalarInvert, if_neg hk, zmod_pow_sub_two hk]
  rfl

theorem foldlM_reconStep_ok (q : ℕ) [Fact q.Prime] (pts : List (ZMod q × EPoint q))
    (ks : List ℕ) (coeffs : List (EPoint q))
    (h : ∀ k ∈ ks, denomAt q (pts.map Prod.fst) k ≠ 0) :
    ks.foldlM (reconStep q pts) coeffs =
      Except.ok (ks.foldl (reconStepPure q pts) coeffs) := by
  induction ks generalizing coeffs with
  | nil => rfl
  | cons k t ih =>
    rw [List.foldlM_cons, reconStep_ok q pts coeffs k (h k (List.mem_cons_self k t)),
      List.foldl_cons]
    rw [except_bind_ok]
    exact ih _ (fun x hx => h x (List.mem_cons_of_mem k hx))

theorem foldlM_reconStep_cases (q : ℕ) (pts : List (ZMod q × EPoint q))
    (ks : List ℕ) (coeffs : List (EPoint q)) :
    (∃ out, ks.foldlM (reconStep q pts) coeffs = Except.ok out) ∨
      ks.foldlM (reconStep q pts) coeffs =
        Except.error ReconstructError.inversionFailed := by
  induction ks generalizing coeffs with
  | nil => exact Or.inl ⟨coeffs, rfl⟩
  | cons k t ih =>
    rw [List.foldlM_cons]
    cases hinv : scalarInvert q (denomAt q (pts.map Prod.fst) k) with
    | none =>
      right
      rw [reconStep, hinv]
      rfl
    | some inv =>
      have hstep : reconStep q pts coeffs k = Except.ok (List.zipWith
          (fun c pk => EPoint.add c (EPoint.smul (pts.getD k (0, EPoint.genMul q 0)).2
            (pk * inv))) coeffs (basisPolyAt q (pts.map Prod.fst) k)) := by
        rw [reconStep, hinv]
      rw [hstep, except_bind_ok]
      exact ih _

theorem foldlM_reconStep_ok_denoms (q : ℕ) (pts : List (ZMod q × EPoint q))
    (ks : List ℕ) (coeffs : List (EPoint q)) (out : List (EPoint q))
    (h : ks.foldlM (reconStep q pts) coeffs = Except.ok out) :
    ∀ k ∈ ks, denomAt q (pts.map Prod.fst) k ≠ 0 := by
  induction ks generalizing coeffs with
  | nil => intro k hk; cases hk
  | cons k t ih =>
    rw [List.foldlM_cons] at h
    cases hinv : scalarInvert q (denomAt q (pts.map Prod.fst) k) with
    | none =>
      rw [reconStep, hinv, except_bind_error] at h
      cases h
    | some inv =>
      have hstep : reconStep q pts coeffs k = Except.ok (List.zipWith
          (fun c pk => EPoint.add c (EPoint.smul (pts.getD k (0, EPoint.genMul q 0)).2
            (pk * inv))) coeffs (basisPolyAt q (pts.map Prod.fst) k)) := by
        rw [reconStep, hinv]
      rw [hstep, except_bind_ok] at h
      intro x hx
      rcases List.mem_cons.mp hx with hxk | hxt
      · subst hxk
        intro hzero
        rw [scalarInvert, if_pos hzero] at hinv
        cases hinv
      · exact ih _ h x hxt

theorem foldl_reconStepPure_length (q : ℕ) (pts : List (ZMod q × EPoint q))
    (ks : List ℕ) (coeffs : List (EPoint q)) (hne : pts ≠ [])
    (hlen : coeffs.length = pts.length) :
    (ks.foldl (reconStepPure q pts) coeffs).length = pts.length := by
  induction ks generalizing coeffs with
  | nil => exact hlen
  | cons k t ih =>
    rw [List.foldl_cons]
    apply ih
    rw [reconStepPure, List.length_zipWith, basisPolyAt_length, List.length_map, hlen]
    · simp
    · simpa using hne

theorem foldl_reconStepPure_headD (q : ℕ) (pts : List (ZMod q × EPoint q))
    (ks : List ℕ) (coeffs : List (EPoint q)) (hne : pts ≠ [])
    (hlen : coeffs.length = pts.length) :
    ((ks.foldl (reconStepPure q pts) coeffs).headD (EPoint.genMul q 0)).dlog =
      (coeffs.headD (EPoint.genMul q 0)).dlog +
        (ks.map (fun k => (pts.getD k (0, EPoint.genMul q 0)).2.dlog *
          ((((pts.map Prod.fst).eraseIdx k).map (fun x => -x)).prod *
            (denomAt q (pts.map Prod.fst) k)⁻¹))).sum := by
  have hpos : 0 < pts.length := List.length_pos.mpr hne
  induction ks generalizing coeffs with
  | nil => simp
  | cons k t ih =>
    rw [List.foldl_cons, List.map_cons, List.sum_cons]
    have hlen2 : (reconStepPure q pts coeffs k).length = pts.length := by
      rw [reconStepPure, List.length_zipWith, basisPolyAt_length, List.length_map, hlen]
      · simp
      · simpa using hne
    rw [ih _ hlen2]
    have hcne : coeffs ≠ [] := by
      intro hc
      rw [hc] at hlen
      simp at hlen
      omega
    obtain ⟨c0, cs, hc⟩ : ∃ c0 cs, coeffs = c0 :: cs := by
      cases coeffs with
      | nil => exact absurd rfl hcne
      | cons c0 cs => exact ⟨c0, cs, rfl⟩
    obtain ⟨b0, bs, hb⟩ : ∃ b0 bs, basisPolyAt q (pts.map Prod.fst) k = b0 :: bs := by
      cases hbb : basisPolyAt q (pts.map Prod.fst) k with
      | nil =>
        have := basisPolyAt_length q (pts.map Prod.fst) k (by simpa using hne)
        rw [hbb] at this
        simp at this
        omega
      | cons b0 bs => exact ⟨b0, bs, rfl⟩
    have hb0 : b0 = (((pts.map Prod.fst).eraseIdx k).map (fun x => -x)).prod := by
      have := basisPolyAt_headD q (pts.map Prod.fst) k
      rw [hb] at this
      simpa using this
    rw [reconStepPure, hc, hb, List.zipWith_cons_cons, List.headD_cons, hb0]
    simp only [EPoint.add, EPoint.smul, List.headD_cons]
    ring

theorem reconCoeffs_ok (q : ℕ) [Fact q.Prime] (pts : List (ZMod q × EPoint q))
    (hnd : (pts.map Prod.fst).Nodup) (hne : pts ≠ []) :
    ∃ coeffs, reconCoeffs q pts = Except.ok coeffs ∧
      coeffs.length = pts.length ∧
      (coeffs.headD (EPoint.genMul q 0)).dlog =
        ((List.range pts.length).map (fun k =>
          (pts.getD k (0, EPoint.genMul q 0)).2.dlog *
            ((((pts.map Prod.fst).eraseIdx k).map (fun x => -x)).prod *
              (denomAt q (pts.map Prod.fst) k)⁻¹))).sum := by
  have hden : ∀ k ∈ List.range pts.length, denomAt q (pts.map Prod.fst) k ≠ 0 := by
    intro k hk
    rw [List.mem_range] at hk
    exact denomAt_ne_zero q (pts.map Prod.fst) hnd k (by simpa using hk)
  have hrep : (List.replicate pts.length (EPoint.genMul q 0)).length = pts.length := by
    simp
  refine ⟨_, by rw [reconCoeffs, foldlM_reconStep_ok q pts _ _ hden], ?_, ?_⟩
  · exact foldl_reconStepPure_length q pts _ _ hne hrep
  · rw [foldl_reconStepPure_headD q pts _ _ hne hrep]
    have hpos : 0 < pts.length := List.length_pos.mpr hne
    obtain ⟨m, hm⟩ : ∃ m, pts.length = m + 1 := ⟨pts.length - 1, by omega⟩
    rw [hm, List.replicate_succ, List.headD_cons]
    simp [EPoint.genMul]

/-! ## Reconstruction error conditions (C4) -/

instance (q : ℕ) : Inhabited (EPoint q) :=
  ⟨EPoint.genMul q 0⟩

theorem mapM_eq_some_of {α β : Type} (f : α → Option β) (g : α → β) :
    ∀ l : List α, (∀ a ∈ l, f a = some (g a)) → l.mapM f = some (l.map g) := by
  intro l
  induction l with
  | nil => intro _; rfl
  | cons a t ih =>
    intro h
    rw [List.mapM_cons, h a (List.mem_cons_self a t),
      ih (fun x hx => h x (List.mem_cons_of_mem a hx))]
    rfl

theorem mapM_isSome {α β : Type} (f : α → Option β) :
    ∀ l : List α, (∀ a ∈ l, (f a).isSome) → ∃ out, l.mapM f = some out := by
  intro l
  induction l with
  | nil => intro _; exact ⟨[], rfl⟩
  | cons a t ih =>
    intro h
    obtain ⟨b, hb⟩ := Option.isSome_iff_exists.mp (h a (List.mem_cons_self a t))
    obtain ⟨out, hout⟩ := ih (fun x hx => h x (List.mem_cons_of_mem a hx))
    exact ⟨b :: out, by rw [List.mapM_cons, hb, hout]; rfl⟩

/-- The decode map used by the reconstructor on one record. -/
def reconDecode (q : ℕ) (d : PortableKeyShare) : Option (ZMod q × EPoint q) :=
  (hexDecode d.x_hex).map (fun bytes =>
    ((((d.i + 1 : ℕ)) : ZMod q), EPoint.genMul q ((fromBytesBE bytes : ℕ) : ZMod q)))

theorem reconstruct_global_params_eq (q : ℕ) (recs : List PortableKeyShare) :
    reconstruct_global_params q recs =
      match recs.mapM (reconDecode q) with
      | none => Except.error ReconstructError.malformedHex
      | some shares_points =>
        if shares_points.length = 0 then Except.error ReconstructError.emptyInput
        else if shares_points.length < (recs.headD default).t then
          Except.error ReconstructError.insufficientShares
        else
          match reconCoeffs q shares_points with
          | Except.error e => Except.error e
          | Except.ok coeffs =>
            Except.ok (coeffs,
              (List.range (recs.headD default).n).map (fun i =>
                evalCommit q coeffs (((i + 1 : ℕ)) : ZMod q))) := rfl

theorem reconstruct_insufficient (q : ℕ) (recs : List PortableKeyShare)
    (hdec : ∀ r ∈ recs, (hexDecode r.x_hex).isSome)
    (hne : recs ≠ [])
    (hlt : recs.length < (recs.headD default).t) :
    reconstruct_global_params q recs =
      Except.error ReconstructError.insufficientShares := by
  obtain ⟨pts, hpts⟩ := mapM_isSome (reconDecode q) recs
    (fun r hr => by
      obtain ⟨bs, hbs⟩ := Option.isSome_iff_exists.mp (hdec r hr)
      rw [reconDecode, hbs]
      rfl)
  have hlen : pts.length = recs.length := (mapM_option_eq_some _ _ _ hpts).1
  rw [reconstruct_global_params_eq, hpts]
  have h0 : ¬ pts.length = 0 := by
    rw [hlen]
    simpa using hne
  dsimp only
  rw [if_neg h0, if_pos (by rw [hlen]; exact hlt)]

/-- C4: error behaviour of `reconstruct_global_params` on decodable records:
zero shares give `EmptyInput`; a nonempty list shorter than the threshold
declared by the first share gives `InsufficientShares` (in particular any
call with exactly `t - 1` shares fails); and when enough shares are given
but two of them carry the same participant index, the zero Lagrange
denominator makes it fail with the inversion-failure error. -/
theorem claim_C4_reconstruct_errors (q : ℕ) :
    (reconstruct_global_params q [] = Except.error ReconstructError.emptyInput) ∧
    (∀ recs : List PortableKeyShare,
      (∀ r ∈ recs, (hexDecode r.x_hex).isSome) → recs ≠ [] →
      recs.length < (recs.headD default).t →
      reconstruct_global_params q recs =
        Except.error ReconstructError.insufficientShares) ∧
    (∀ recs : List PortableKeyShare,
      (∀ r ∈ recs, (hexDecode r.x_hex).isSome) → recs ≠ [] →
      recs.length + 1 = (recs.headD default).t →
      reconstruct_global_params q recs =
        Except.error ReconstructError.insufficientShares) ∧
    (∀ (recs : List PortableKeyShare) (p k : ℕ),
      (∀ r ∈ recs, (hexDecode r.x_hex).isSome) →
      p < k → k < recs.length →
      (recs.getD p default).i = (recs.getD k default).i →
      ¬ recs.length < (recs.headD default).t →
      reconstruct_global_params q recs =
        Except.error ReconstructError.inversionFailed) := by
  refine ⟨rfl, fun recs hdec hne hlt => reconstruct_insufficient q recs hdec hne hlt,
    fun recs hdec hne hteq =>
      reconstruct_insufficient q recs hdec hne (by omega), ?_⟩
  intro recs p k hdec hpk hk hik henough
  obtain ⟨pts, hpts⟩ := mapM_isSome (reconDecode q) recs
    (fun r hr => by
      obtain ⟨bs, hbs⟩ := Option.isSome_iff_exists.mp (hdec r hr)
      rw [reconDecode, hbs]
      rfl)
  obtain ⟨hlen, hpoint⟩ := mapM_option_eq_some (reconDecode q) recs pts hpts
  have hp : p < recs.length := lt_trans hpk hk
  have hmemp : recs.getD p default ∈ recs := by
    rw [List.getD_eq_getElem _ _ hp]
    exact List.getElem_mem _
  have hmemk : recs.getD k default ∈ recs := by
    rw [List.getD_eq_getElem _ _ hk]
    exact List.getElem_mem _
  have hnodep : (pts.getD p default).1 = (((recs.getD p default).i + 1 : ℕ) : ZMod q) := by
    have h := hpoint p hp
    obtain ⟨bs, hbs⟩ := Option.isSome_iff_exists.mp (hdec _ hmemp)
    rw [reconDecode, hbs, Option.map_some'] at h
    rw [← Option.some_inj.mp h]
  have hnodek : (pts.getD k default).1 = (((recs.getD k default).i + 1 : ℕ) : ZMod q) := by
    have h := hpoint k hk
    obtain ⟨bs, hbs⟩ := Option.isSome_iff_exists.mp (hdec _ hmemk)
    rw [reconDecode, hbs, Option.map_some'] at h
    rw [← Option.some_inj.mp h]
  rw [reconstruct_global_params_eq, hpts]
  have h0 : ¬ pts.length = 0 := by
    rw [hlen]
    omega
  dsimp only
  rw [if_neg h0, if_neg (by rw [hlen]; exact henough)]
  set nodes := pts.map Prod.fst with hnodes
  have hnlen : nodes.length = pts.length := by simp [hnodes]
  have hmaplen : (List.map Prod.fst pts).length = pts.length := by simp
  have hnodegetp : nodes.getD p 0 = (pts.getD p default).1 := by
    rw [List.getD_eq_getElem _ _ (show p < nodes.length by omega),
      List.getD_eq_getElem _ _ (show p < pts.length by omega)]
    simp [hnodes]
  have hnodegetk : nodes.getD k 0 = (pts.getD k default).1 := by
    rw [List.getD_eq_getElem _ _ (show k < nodes.length by omega),
      List.getD_eq_getElem _ _ (show k < pts.length by omega)]
    simp [hnodes]
  have hdenom : denomAt q nodes p = 0 := by
    rw [denomAt_eq]
    apply List.prod_eq_zero
    rw [List.mem_map]
    refine ⟨nodes.getD k 0, ?_, ?_⟩
    · have hmem : nodes[k]? = some (nodes.getD k 0) := by
        rw [List.getD_eq_getElem _ _ (by omega), List.getElem?_eq_getElem (by omega)]
      have herase : (nodes.eraseIdx p)[k - 1]? = nodes[k]? := by
        rw [List.getElem?_eraseIdx_of_ge _ _ _ (by omega)]
        congr 1
        omega
      rw [hmem] at herase
      exact List.getElem?_mem herase
    · rw [hnodegetp, hnodegetk, hnodep, hnodek, hik, sub_self]
  rcases foldlM_reconStep_cases q pts (List.range pts.length)
      (List.replicate pts.length (EPoint.genMul q 0)) with ⟨out, hout⟩ | herr
  · exfalso
    have := foldlM_reconStep_ok_denoms q pts _ _ out hout p
      (by rw [List.mem_range]; omega)
    rw [← hnodes] at this
    exact this hdenom
  · rw [reconCoeffs, herr]

theorem claim_C4_witness :
    ((∀ r ∈ ([⟨0, 3, 3, ['0', '3'], []⟩] : List PortableKeyShare),
        (hexDecode r.x_hex).isSome) ∧
      reconstruct_global_params 17 [⟨0, 3, 3, ['0', '3'], []⟩] =
        Except.error ReconstructError.insufficientShares) ∧
    (reconstruct_global_params 17
        [⟨0, 3, 3, ['0', '3'], []⟩, ⟨1, 3, 3, ['0', '4'], []⟩] =
      Except.error ReconstructError.insufficientShares) ∧
    (reconstruct_global_params 17
        [⟨0, 2, 3, ['0', '3'], []⟩, ⟨0, 2, 3, ['0', '4'], []⟩] =
      Except.error ReconstructError.inversionFailed) := by
  refine ⟨⟨by decide, ?_⟩, ?_, ?_⟩
  · exact (claim_C4_reconstruct_errors 17).2.1 [⟨0, 3, 3, ['0', '3'], []⟩]
      (by decide) (by decide) (by decide)
  · exact (claim_C4_reconstruct_errors 17).2.2.1
      [⟨0, 3, 3, ['0', '3'], []⟩, ⟨1, 3, 3, ['0', '4'], []⟩]
      (by decide) (by decide) (by decide)
  · exact (claim_C4_reconstruct_errors 17).2.2.2
      [⟨0, 2, 3, ['0', '3'], []⟩, ⟨0, 2, 3, ['0', '4'], []⟩] 0 1
      (by decide) (by decide) (by decide) (by decide) (by decide)

/-! ## Shamir reconstruction identity (C1) -/

theorem EPoint.eq_of_dlog {q : ℕ} {a b : EPoint q} (h : a.dlog = b.dlog) : a = b := by
  cases a
  cases b
  simpa using h

theorem getD_map_of_lt {α β : Type} (l : List α) (g : α → β) (k : ℕ)
    (hk : k < l.length) (da : α) (db : β) :
    (l.map g).getD k db = g (l.getD k da) := by
  rw [List.getD_eq_getElem _ _ (by simpa using hk), List.getElem_map,
    List.getD_eq_getElem _ _ hk]

theorem hexDecode_encode_scalar (q w : ℕ) (v : ZMod q) :
    hexDecode (encode_scalar q w v) = some (toBytesBE w v.val) := by
  rw [encode_scalar]
  exact hexDecode_hexEncodeBytes _ (toBytesBE_lt w v.val)

theorem fromBytes_encode_scalar (q w : ℕ) [NeZero q] (hw : q ≤ 256 ^ w) (v : ZMod q) :
    ((fromBytesBE (toBytesBE w v.val) : ℕ) : ZMod q) = v := by
  rw [fromBytesBE_toBytesBE, Nat.mod_eq_of_lt (lt_of_lt_of_le (ZMod.val_lt v) hw)]
  exact ZMod.natCast_rightInverse v

/-- C1: for every secret `s`, threshold `1 ≤ t ≤ n`, coefficient stream, and
subset `sel` of at least `t` party indices below `n` with distinct evaluation
points, reconstructing from the records that carry share `i` (hex-encoded) at
evaluation point `i + 1` succeeds and yields `C_0 = s · G` as the first
commitment. -/
theorem claim_C1_reconstruction_identity (q w : ℕ) [Fact q.Prime]
    (hw : q ≤ 256 ^ w) (s : ZMod q) (t n : ℕ) (rand : ℕ → ZMod q)
    (ys : ℕ → List Char) (ht : 1 ≤ t) (htn : t ≤ n) (sel : List ℕ)
    (hsel : ∀ i ∈ sel, i < n) (hlen : t ≤ sel.length)
    (hnd : (sel.map (fun i => ((i + 1 : ℕ) : ZMod q))).Nodup) :
    ∃ res, reconstruct_global_params q
        (sel.map (fun i => ⟨i, t, n,
          encode_scalar q w ((generate_polynomial_shares q s t n rand).getD i 0),
          ys i⟩)) = Except.ok res ∧
      res.1 ≠ [] ∧
      res.1.headD (EPoint.genMul q 0) = EPoint.genMul q s := by
  haveI : NeZero q := ⟨Nat.Prime.ne_zero Fact.out⟩
  have hm : 1 ≤ sel.length := le_trans ht hlen
  obtain ⟨i0, sel', hsel0⟩ : ∃ i0 sel', sel = i0 :: sel' := by
    cases sel with
    | nil => simp at hm
    | cons i0 sel' => exact ⟨i0, sel', rfl⟩
  set shares := generate_polynomial_shares q s t n rand with hshares
  set cs := resharingCoeffs q s t rand with hcs
  set fpoly := cs.foldr (fun c p => Polynomial.C c + Polynomial.X * p) 0 with hfpoly
  have hcslen : cs.length = t := by
    rw [hcs, resharingCoeffs]
    simp
    omega
  set recs := sel.map (fun i => (⟨i, t, n,
    encode_scalar q w (shares.getD i 0), ys i⟩ : PortableKeyShare)) with hrecs
  set gg := fun r : PortableKeyShare =>
    ((((r.i + 1 : ℕ)) : ZMod q), EPoint.genMul q (shares.getD r.i 0)) with hgg
  have hdecrec : ∀ r ∈ recs, reconDecode q r = some (gg r) := by
    intro r hr
    rw [hrecs, List.mem_map] at hr
    obtain ⟨i, _, hri⟩ := hr
    subst hri
    rw [reconDecode, hgg]
    dsimp only
    rw [hexDecode_encode_scalar, Option.map_some', fromBytes_encode_scalar q w hw]
  have hmapM : recs.mapM (reconDecode q) = some (recs.map gg) :=
    mapM_eq_some_of _ gg recs hdecrec
  set pts := recs.map gg with hpts
  have hreclen : recs.length = sel.length := by rw [hrecs]; simp
  have hptslen : pts.length = sel.length := by rw [hpts, hrecs]; simp
  have hnodeseq : pts.map Prod.fst = sel.map (fun i => ((i + 1 : ℕ) : ZMod q)) := by
    rw [hpts, hrecs, List.map_map, List.map_map]
    rfl
  have hndn : (pts.map Prod.fst).Nodup := by rw [hnodeseq]; exact hnd
  have hptsne : pts ≠ [] := by
    intro h
    rw [h] at hptslen
    simp at hptslen
    omega
  obtain ⟨coeffs, hco, hcolen, hcohead⟩ := reconCoeffs_ok q pts hndn hptsne
  have hnodelen : (pts.map Prod.fst).length = pts.length := by simp
  have hnodegetD : ∀ k, k < pts.length →
      (pts.map Prod.fst).getD k 0 = (((sel.getD k 0 + 1 : ℕ)) : ZMod q) := by
    intro k hk
    rw [getD_map_of_lt pts Prod.fst k hk (0, EPoint.genMul q 0) 0,
      hpts, getD_map_of_lt recs gg k (by omega) default, hrecs,
      getD_map_of_lt sel _ k (by omega) 0]
  have hptsgetD : ∀ k, k < pts.length →
      pts.getD k (0, EPoint.genMul q 0) =
        ((((sel.getD k 0 + 1 : ℕ)) : ZMod q),
          EPoint.genMul q (shares.getD (sel.getD k 0) 0)) := by
    intro k hk
    rw [hpts, getD_map_of_lt recs gg k (by omega) default, hrecs,
      getD_map_of_lt sel _ k (by omega) 0]
  have hterm : ∀ k ∈ List.range pts.length,
      (pts.getD k (0, EPoint.genMul q 0)).2.dlog *
        ((((pts.map Prod.fst).eraseIdx k).map (fun x => -x)).prod *
          (denomAt q (pts.map Prod.fst) k)⁻¹) =
      fpoly.eval ((pts.map Prod.fst).getD k 0) *
        (((pts.map Prod.fst).eraseIdx k).map
          (fun y => y * (y - (pts.map Prod.fst).getD k 0)⁻¹)).prod := by
    intro k hk
    rw [List.mem_range] at hk
    have hselk : sel.getD k 0 ∈ sel := by
      rw [List.getD_eq_getElem _ _ (by omega)]
      exact List.getElem_mem _
    rw [hptsgetD k hk, hnodegetD k hk]
    dsimp only [EPoint.genMul]
    rw [denomAt_eq, hnodegetD k hk, prod_neg_mul_inv]
    congr 1
    rw [hshares, generate_polynomial_shares_getD q s t n rand (hsel _ hselk),
      ← hcs, ← eval_foldr_poly, ← hfpoly]
  have hdeg : fpoly.degree < (((pts.map Prod.fst).length : ℕ) : WithBot ℕ) := by
    refine lt_of_lt_of_le (degree_foldr_poly q cs) ?_
    rw [hcslen, hnodelen, hptslen]
    exact_mod_cast hlen
  have hsum := lagrange_sum_at_zero_pos q (pts.map Prod.fst) hndn fpoly hdeg
  have hfeval0 : fpoly.eval 0 = s := by
    rw [hfpoly, eval_foldr_poly, hcs, resharingCoeffs]
    simp [sumPow]
  have hheads : (coeffs.headD (EPoint.genMul q 0)).dlog = s := by
    rw [hcohead, List.map_congr_left hterm,
      show pts.length = (List.map Prod.fst pts).length from hnodelen.symm,
      hsum, hfeval0]
  refine ⟨(coeffs, (List.range (recs.headD default).n).map (fun i =>
      evalCommit q coeffs (((i + 1 : ℕ)) : ZMod q))), ?_, ?_, ?_⟩
  · rw [reconstruct_global_params_eq, hmapM]
    dsimp only
    have h0 : ¬ pts.length = 0 := by omega
    have hheadt : (recs.headD default).t = t := by
      rw [hrecs, hsel0]
      rfl
    rw [if_neg h0, if_neg (by rw [hheadt]; omega), hco]
  · show coeffs ≠ []
    intro h
    rw [h] at hcolen
    simp at hcolen
    omega
  · show coeffs.headD (EPoint.genMul q 0) = EPoint.genMul q s
    exact EPoint.eq_of_dlog hheads

theorem claim_C1_witness :
    (Nat.Prime 17 ∧ 17 ≤ 256 ^ 1 ∧ 1 ≤ 3 ∧ 3 ≤ 5 ∧
      (∀ i ∈ ([0, 2, 4] : List ℕ), i < 5) ∧ 3 ≤ ([0, 2, 4] : List ℕ).length ∧
      (([0, 2, 4] : List ℕ).map (fun i => ((i + 1 : ℕ) : ZMod 17))).Nodup) ∧
    ∃ res, reconstruct_global_params 17
        (([0, 2, 4] : List ℕ).map (fun i => ⟨i, 3, 5,
          encode_scalar 17 1
            ((generate_polynomial_shares 17 7 3 5 (fun k => [2, 5].getD k 0)).getD i 0),
          (fun _ : ℕ => ([] : List Char)) i⟩)) = Except.ok res ∧
      res.1 ≠ [] ∧
      res.1.headD (EPoint.genMul 17 0) = EPoint.genMul 17 7 :=
  ⟨⟨by norm_num, by norm_num, by decide, by decide, by decide, by decide, by decide⟩,
    @claim_C1_reconstruction_identity 17 1 ⟨by norm_num⟩ (by norm_num) 7 3 5
      (fun k => [2, 5].getD k 0) (fun _ => []) (by decide) (by decide) [0, 2, 4]
      (by decide) (by decide) (by decide)⟩

/-! ## Resharing homomorphism (C2): helpers -/

theorem nodup_filter_ne_eq_erase {α : Type} [DecidableEq α] (l : List α)
    (hl : l.Nodup) (a : α) : l.filter (fun y => y ≠ a) = l.erase a := by
  induction l with
  | nil => rfl
  | cons b tl ih =>
    rw [List.nodup_cons] at hl
    by_cases hba : b = a
    · subst hba
      rw [List.erase_cons_head, List.filter_cons_of_neg (by simp)]
      exact List.filter_eq_self.mpr (fun y hy => by
        simp only [ne_eq, decide_eq_true_eq]
        intro hya
        exact hl.1 (hya ▸ hy))
    · rw [List.erase_cons_tail (by simpa using hba), List.filter_cons_of_pos (by simpa),
        ih hl.2]

theorem foldlM_map_add {α : Type} (q : ℕ) (f : α → Option (ZMod q))
    (fv : α → ZMod q) :
    ∀ (l : List α), (∀ x ∈ l, f x = some (fv x)) → ∀ a : ZMod q,
      l.foldlM (fun acc x => (f x).map (fun v => acc + v)) a =
        some (a + (l.map fv).sum) := by
  intro l
  induction l with
  | nil => intro _ a; simp
  | cons x tl ih =>
    intro h a
    rw [List.foldlM_cons, h x (List.mem_cons_self x tl), Option.map_some']
    have := ih (fun y hy => h y (List.mem_cons_of_mem x hy)) (a + fv x)
    rw [show ((some (a + fv x) : Option (ZMod q)) >>= fun b =>
        tl.foldlM (fun acc x => (f x).map (fun v => acc + v)) b) =
        tl.foldlM (fun acc x => (f x).map (fun v => acc + v)) (a + fv x) from rfl, this]
    rw [List.map_cons, List.sum_cons, add_assoc]

theorem eval_list_sum_poly (q : ℕ) (l : List (Polynomial (ZMod q))) (x : ZMod q) :
    Polynomial.eval x l.sum = (l.map (Polynomial.eval x)).sum := by
  induction l with
  | nil => simp
  | cons p tl ih => simp [ih]

theorem degree_list_sum_lt (q : ℕ) (l : List (Polynomial (ZMod q))) (D : ℕ)
    (h : ∀ p ∈ l, p.degree < ((D : ℕ) : WithBot ℕ)) :
    l.sum.degree < ((D : ℕ) : WithBot ℕ) := by
  induction l with
  | nil =>
    simp only [List.sum_nil, Polynomial.degree_zero]
    exact WithBot.bot_lt_coe D
  | cons p tl ih =>
    rw [List.sum_cons]
    refine lt_of_le_of_lt (Polynomial.degree_add_le _ _) (max_lt ?_ ?_)
    · exact h p (List.mem_cons_self p tl)
    · exact ih (fun x hx => h x (List.mem_cons_of_mem p hx))

theorem getD_range (n k : ℕ) (hk : k < n) : (List.range n).getD k 0 = k := by
  rw [List.getD_eq_getElem _ _ (by simpa using hk), List.getElem_range]

theorem sortByIndex_perm (recs : List PortableKeyShare) :
    (sortByIndex recs).Perm recs :=
  List.mergeSort_perm recs _

theorem sortByIndex_map_index (recs : List PortableKeyShare)
    (hidx : (recs.map (fun r => r.i)).Perm (List.range recs.length)) :
    (sortByIndex recs).map (fun r => r.i) = List.range recs.length := by
  have hsorted : ((sortByIndex recs).map (fun r => r.i)).Sorted (· ≤ ·) := by
    rw [List.Sorted, List.pairwise_map]
    have hpw := @List.sorted_mergeSort PortableKeyShare
      (fun a b : PortableKeyShare => a.i ≤ b.i)
      (fun a b c hab hbc => by
        simp only [decide_eq_true_eq] at hab hbc ⊢
        omega)
      (fun a b => by
        simp only [Bool.or_eq_true, decide_eq_true_eq]
        omega)
      recs
    exact hpw.imp (fun h => by simpa using h)
  have hperm : ((sortByIndex recs).map (fun r => r.i)).Perm (List.range recs.length) :=
    ((sortByIndex_perm recs).map (fun r => r.i)).trans hidx
  exact List.eq_of_perm_of_sorted hperm hsorted (List.sorted_le_range _)

theorem lagrange_sum_product (q : ℕ) [Fact q.Prime] (nodes : List (ZMod q))
    (hnd : nodes.Nodup) (f : Polynomial (ZMod q))
    (hdeg : f.degree < (nodes.length : ℕ)) :
    (nodes.map (fun x => f.eval x * lagrangeProduct q x nodes)).sum = f.eval 0 := by
  rw [← lagrange_sum_at_zero q nodes hnd f hdeg]
  refine congrArg List.sum (List.map_congr_left ?_)
  intro x _
  rw [lagrangeProduct, nodup_filter_ne_eq_erase nodes hnd x]

theorem additive_portable_to_shamir_portable_eq (q w : ℕ)
    (recs : List PortableKeyShare) (threshold : ℕ) (rand : ℕ → ℕ → ZMod q) :
    additive_portable_to_shamir_portable q w recs threshold rand =
      (match (List.range recs.length).mapM (fun i =>
          generate_resharing_polynomial q w
            ((sortByIndex recs).getD i default).x_hex threshold recs.length (rand i)) with
      | none => none
      | some shares_sent =>
        (List.range recs.length).mapM (fun j =>
          match (List.range recs.length).foldlM (fun acc i =>
              (decode_scalar q w ((shares_sent.getD i []).getD j [])).map
                (fun s => acc + s)) (0 : ZMod q) with
          | none => none
          | some sum_scalar =>
            some { (sortByIndex recs).getD j default with
              x_hex := encode_scalar q w sum_scalar, t := threshold })) := rfl

/-- C2: for records whose indices are exactly `0..n-1` and whose decoded
shares sum to `s`, the resharing engine succeeds; each output share `x_j`
decodes to the sum over `i` of the `j`-th sub-share of party `i`'s
resharing polynomial, and reconstructing from any subset of at least `t`
of the output records (weighting each share with the Lagrange coefficient
at its own point `i + 1` over the subset) recovers `s`. -/
theorem claim_C2_resharing_homomorphism (q w : ℕ) [Fact q.Prime]
    (hw : q ≤ 256 ^ w) (recs : List PortableKeyShare) (t : ℕ)
    (rand : ℕ → ℕ → ZMod q) (xv : PortableKeyShare → ZMod q) (s : ZMod q)
    (hidx : (recs.map (fun r => r.i)).Perm (List.range recs.length))
    (ht : 1 ≤ t) (htn : t ≤ recs.length)
    (hx : ∀ r ∈ recs, decode_scalar q w r.x_hex = some (xv r))
    (hsum : (recs.map xv).sum = s)
    (sel : List ℕ) (hselsub : ∀ j ∈ sel, j < recs.length)
    (hsellen : t ≤ sel.length)
    (hselnd : (sel.map (fun j => ((j + 1 : ℕ) : ZMod q))).Nodup) :
    ∃ out, additive_portable_to_shamir_portable q w recs t rand = some out ∧
      out.length = recs.length ∧
      (∀ j, j < recs.length →
        (out.getD j default).i = j ∧
        decode_scalar q w (out.getD j default).x_hex =
          some (((List.range recs.length).map (fun i =>
            (generate_polynomial_shares q (xv ((sortByIndex recs).getD i default)) t
              recs.length (rand i)).getD j 0)).sum)) ∧
      ∃ lam : ℕ → ZMod q,
        (∀ j ∈ sel, calculate_lagrange_coefficient q ((out.getD j default).i + 1)
            (sel.map (fun j => j + 1)) = some (lam j)) ∧
        (sel.map (fun j =>
          (((List.range recs.length).map (fun i =>
            (generate_polynomial_shares q (xv ((sortByIndex recs).getD i default)) t
              recs.length (rand i)).getD j 0)).sum) * lam j)).sum = s := by
  haveI : NeZero q := ⟨Nat.Prime.ne_zero Fact.out⟩
  set n := recs.length with hn
  set sorted := sortByIndex recs with hsorteddef
  have hslen : sorted.length = n := (sortByIndex_perm recs).length_eq
  have hmapidx : sorted.map (fun r => r.i) = List.range n := sortByIndex_map_index recs hidx
  have hidxj : ∀ j, j < n → (sorted.getD j default).i = j := by
    intro j hj
    have h1 : (sorted.map (fun r => r.i)).getD j 0 = (List.range n).getD j 0 := by
      rw [hmapidx]
    rw [getD_map_of_lt sorted _ j (by omega) default, getD_range n j hj] at h1
    exact h1
  have hxs : ∀ r ∈ sorted, decode_scalar q w r.x_hex = some (xv r) := by
    intro r hr
    exact hx r ((sortByIndex_perm recs).mem_iff.mp hr)
  have hmemsorted : ∀ j, j < n → sorted.getD j default ∈ sorted := by
    intro j hj
    rw [List.getD_eq_getElem _ _ (by omega)]
    exact List.getElem_mem _
  set shareval := fun (i j : ℕ) =>
    (generate_polynomial_shares q (xv (sorted.getD i default)) t n (rand i)).getD j 0
    with hshareval
  set rows := fun i : ℕ =>
    (generate_polynomial_shares q (xv (sorted.getD i default)) t n (rand i)).map
      (encode_scalar q w) with hrows
  have hmap1 : (List.range n).mapM (fun i =>
      generate_resharing_polynomial q w (sorted.getD i default).x_hex t n (rand i)) =
      some ((List.range n).map rows) := by
    apply mapM_eq_some_of
    intro i hi
    rw [List.mem_range] at hi
    rw [generate_resharing_polynomial, hxs _ (hmemsorted i hi)]
  have hsent : ∀ i, i < n → ((List.range n).map rows).getD i [] = rows i := by
    intro i hi
    rw [getD_map_of_lt (List.range n) rows i (by simpa using hi) 0, getD_range n i hi]
  have hglen : ∀ i, (generate_polynomial_shares q (xv (sorted.getD i default)) t n
      (rand i)).length = n := by
    intro i
    simp [generate_polynomial_shares]
  have hrowsj : ∀ i j, i < n → j < n →
      (rows i).getD j [] = encode_scalar q w (shareval i j) := by
    intro i j hi hj
    rw [hrows]
    dsimp only
    rw [getD_map_of_lt _ _ j (by rw [hglen i]; exact hj) 0, hshareval]
  set xs := fun j : ℕ => ((List.range n).map (fun i => shareval i j)).sum with hxsdef
  have hfold : ∀ j, j < n → (List.range n).foldlM (fun acc i =>
      (decode_scalar q w ((((List.range n).map rows).getD i []).getD j [])).map
        (fun v => acc + v)) (0 : ZMod q) = some (xs j) := by
    intro j hj
    have h := foldlM_map_add q
      (fun i => decode_scalar q w ((((List.range n).map rows).getD i []).getD j []))
      (fun i => shareval i j) (List.range n) ?_ 0
    · rw [h, zero_add]
    · intro i hi
      rw [List.mem_range] at hi
      show decode_scalar q w (((List.map rows (List.range n)).getD i []).getD j []) =
        some (shareval i j)
      rw [hsent i hi, hrowsj i j hi hj, decode_encode_scalar q w hw]
  set recordf := fun j : ℕ =>
    { sorted.getD j default with x_hex := encode_scalar q w (xs j), t := t }
    with hrecordf
  have hmap2 : (List.range n).mapM (fun j =>
      match (List.range n).foldlM (fun acc i =>
          (decode_scalar q w ((((List.range n).map rows).getD i []).getD j [])).map
            (fun s => acc + s)) (0 : ZMod q) with
      | none => none
      | some sum_scalar =>
        some { sorted.getD j default with
          x_hex := encode_scalar q w sum_scalar, t := t }) =
      some ((List.range n).map recordf) := by
    apply mapM_eq_some_of
    intro j hj
    rw [List.mem_range] at hj
    rw [hfold j hj]
  have hout : additive_portable_to_shamir_portable q w recs t rand =
      some ((List.range n).map recordf) := by
    rw [additive_portable_to_shamir_portable_eq, ← hsorteddef, ← hn, hmap1]
    exact hmap2
  have houtget : ∀ j, j < n → ((List.range n).map recordf).getD j default = recordf j := by
    intro j hj
    rw [getD_map_of_lt (List.range n) recordf j (by simpa using hj) 0, getD_range n j hj]
  refine ⟨(List.range n).map recordf, hout, by simp, ?_, ?_⟩
  · intro j hj
    rw [houtget j hj]
    refine ⟨hidxj j hj, ?_⟩
    rw [hrecordf]
    dsimp only
    rw [decode_encode_scalar q w hw]
  · refine ⟨fun j => lagrangeProduct q (((j + 1 : ℕ)) : ZMod q)
      ((sel.map (fun j => j + 1)).map (fun v => ((v : ℕ) : ZMod q))), ?_, ?_⟩
    · intro j hj
      rw [houtget j (hselsub j hj), hrecordf]
      dsimp only
      rw [hidxj j (hselsub j hj)]
      exact calculate_lagrange_coefficient_eq_product q (j + 1) _
    · set nodes := sel.map (fun j => ((j + 1 : ℕ) : ZMod q)) with hnodes
      have hnodeseq : (sel.map (fun j => j + 1)).map (fun v => ((v : ℕ) : ZMod q)) =
          nodes := by
        rw [hnodes, List.map_map]
        rfl
      set bigF := ((List.range n).map (fun i =>
        (resharingCoeffs q (xv (sorted.getD i default)) t (rand i)).foldr
          (fun c p => Polynomial.C c + Polynomial.X * p) 0)).sum with hbigF
      have hxseval : ∀ j, j < n → xs j = bigF.eval (((j + 1 : ℕ)) : ZMod q) := by
        intro j hj
        rw [hxsdef]
        dsimp only
        rw [hbigF, eval_list_sum_poly, List.map_map]
        refine congrArg List.sum (List.map_congr_left ?_)
        intro i _
        rw [hshareval]
        dsimp only [Function.comp_def]
        rw [generate_polynomial_shares_getD q _ t n (rand i) hj, eval_foldr_poly]
      have hdegF : bigF.degree < ((nodes.length : ℕ) : WithBot ℕ) := by
        rw [hbigF]
        have hlen2 : nodes.length = sel.length := by rw [hnodes]; simp
        refine lt_of_lt_of_le (degree_list_sum_lt q _ t ?_) ?_
        · intro p hp
          rw [List.mem_map] at hp
          obtain ⟨i, _, hip⟩ := hp
          subst hip
          refine lt_of_lt_of_le (degree_foldr_poly q _) ?_
          have : (resharingCoeffs q (xv (sorted.getD i default)) t (rand i)).length =
              t := by
            rw [resharingCoeffs]
            simp
            omega
          rw [this]
        · rw [hlen2]
          exact_mod_cast hsellen
      have hcore := lagrange_sum_product q nodes hselnd bigF hdegF
      have hF0 : bigF.eval 0 = s := by
        rw [hbigF, eval_list_sum_poly, List.map_map]
        have : ((List.range n).map ((Polynomial.eval 0) ∘ (fun i =>
            (resharingCoeffs q (xv (sorted.getD i default)) t (rand i)).foldr
              (fun c p => Polynomial.C c + Polynomial.X * p) 0))) =
            (List.range n).map (fun i => xv (sorted.getD i default)) := by
          refine List.map_congr_left ?_
          intro i _
          dsimp only [Function.comp_def]
          rw [eval_foldr_poly, resharingCoeffs]
          simp [sumPow]
        rw [this, show n = sorted.length from hslen.symm,
          map_range_getD sorted default xv]
        rw [← hsum]
        exact ((sortByIndex_perm recs).map xv).sum_eq
      have hpoint : ∀ j ∈ sel,
          ((List.range n).map (fun i =>
            (generate_polynomial_shares q (xv (sorted.getD i default)) t n
              (rand i)).getD j 0)).sum *
            lagrangeProduct q (((j + 1 : ℕ)) : ZMod q) nodes =
          bigF.eval (((j + 1 : ℕ)) : ZMod q) *
            lagrangeProduct q (((j + 1 : ℕ)) : ZMod q) nodes := by
        intro j hj
        congr 1
        exact hxseval j (hselsub j hj)
      calc (sel.map (fun j =>
            ((List.range n).map (fun i =>
              (generate_polynomial_shares q (xv (sorted.getD i default)) t n
                (rand i)).getD j 0)).sum *
              lagrangeProduct q (((j + 1 : ℕ)) : ZMod q)
                ((sel.map (fun j => j + 1)).map (fun v => ((v : ℕ) : ZMod q))))).sum
          = (sel.map (fun j =>
              bigF.eval (((j + 1 : ℕ)) : ZMod q) *
                lagrangeProduct q (((j + 1 : ℕ)) : ZMod q) nodes)).sum := by
            rw [hnodeseq]
            exact congrArg List.sum (List.map_congr_left hpoint)
        _ = (nodes.map (fun x => bigF.eval x * lagrangeProduct q x nodes)).sum := by
            rw [hnodes, List.map_map]
            rfl
        _ = bigF.eval 0 := hcore
        _ = s := hF0

theorem claim_C2_witness :
    (Nat.Prime 17 ∧ (17 : ℕ) ≤ 256 ^ 1 ∧
      ((([⟨0, 2, 2, ['0', '3'], []⟩, ⟨1, 2, 2, ['0', '4'], []⟩] :
          List PortableKeyShare).map (fun r => r.i)).Perm (List.range 2)) ∧
      (∀ r ∈ ([⟨0, 2, 2, ['0', '3'], []⟩, ⟨1, 2, 2, ['0', '4'], []⟩] :
          List PortableKeyShare),
        decode_scalar 17 1 r.x_hex =
          some ((fun r : PortableKeyShare =>
            if r.i = 0 then (3 : ZMod 17) else 4) r)) ∧
      (([⟨0, 2, 2, ['0', '3'], []⟩, ⟨1, 2, 2, ['0', '4'], []⟩] :
          List PortableKeyShare).map (fun r : PortableKeyShare =>
            if r.i = 0 then (3 : ZMod 17) else 4)).sum = 7) ∧
    ∃ out, additive_portable_to_shamir_portable 17 1
        [⟨0, 2, 2, ['0', '3'], []⟩, ⟨1, 2, 2, ['0', '4'], []⟩] 2
        (fun _ _ => (1 : ZMod 17)) = some out ∧
      out.length = 2 ∧
      (∀ j, j < 2 →
        (out.getD j default).i = j ∧
        decode_scalar 17 1 (out.getD j default).x_hex =
          some (((List.range 2).map (fun i =>
            (generate_polynomial_shares 17
              ((fun r : PortableKeyShare => if r.i = 0 then (3 : ZMod 17) else 4)
                ((sortByIndex [⟨0, 2, 2, ['0', '3'], []⟩,
                  ⟨1, 2, 2, ['0', '4'], []⟩]).getD i default)) 2 2
              (fun _ => (1 : ZMod 17))).getD j 0)).sum)) ∧
      ∃ lam : ℕ → ZMod 17,
        (∀ j ∈ ([0, 1] : List ℕ),
          calculate_lagrange_coefficient 17 ((out.getD j default).i + 1)
            (([0, 1] : List ℕ).map (fun j => j + 1)) = some (lam j)) ∧
        (([0, 1] : List ℕ).map (fun j =>
          (((List.range 2).map (fun i =>
            (generate_polynomial_shares 17
              ((fun r : PortableKeyShare => if r.i = 0 then (3 : ZMod 17) else 4)
                ((sortByIndex [⟨0, 2, 2, ['0', '3'], []⟩,
                  ⟨1, 2, 2, ['0', '4'], []⟩]).getD i default)) 2 2
              (fun _ => (1 : ZMod 17))).getD j 0)).sum) * lam j)).sum = 7 :=
  ⟨⟨by norm_num, by norm_num, by decide, by decide, by decide⟩,
    @claim_C2_resharing_homomorphism 17 1 ⟨by norm_num⟩ (by norm_num)
      [⟨0, 2, 2, ['0', '3'], []⟩, ⟨1, 2, 2, ['0', '4'], []⟩] 2
      (fun _ _ => (1 : ZMod 17))
      (fun r => if r.i = 0 then (3 : ZMod 17) else 4) 7
      (by decide) (by decide) (by decide) (by decide) (by decide)
      [0, 1] (by decide) (by decide) (by decide)⟩

end MpcBridge
